import Mathlib

/-!
Verification of the professions-LLM-parser pipeline.

Shallow embedding of the repository's core logic:
* `src/providers/openai_professions_provider.py` — salvage JSON parsing
  (`_safe_json`), case-insensitive dedup (`_dedup_strings`), the degrading
  call ladder (`_json_schema_safe` over `_responses_call` and `_chat_call`),
  stage-A names extraction (`list_profession_names`), stage-B detail
  normalization (`get_profession_detail`), and `seed_names`.
* `src/domain/dto.py` — `UploadProfessionDto` field validation
  (`_clean_skills`, `_range_ok`, pydantic field constraints).
* `src/main.py` — the stage-A merge/dedup/seed-substitution step and the
  stage-B bounded fan-out (`_stage_b_enrich_details`).

Python JSON values are modelled by the inductive type `Json`; JSON numbers
are modelled as integers (the claims under verification only exercise
integer arithmetic, so the float fragment of `json.loads` is out of model:
a numeric literal with a fractional or exponent part makes the modelled
parser fail, where Python would produce a float).  `json.loads` and
`json.dumps` are modelled by an executable recursive-descent parser
(`json_loads`) and serializer (`dumps`) over that type; string escapes
cover the common set emitted by serializers, which covers every input the
claims evaluate.  The async stage-B fan-out is modelled by explicit
completion-order lists, and the `asyncio.Semaphore` admission gate by a
labelled transition system.
-/

/-- The opening-brace character, written via its code point. -/
def lbrace : Char := Char.ofNat 123

/-- The closing-brace character, written via its code point. -/
def rbrace : Char := Char.ofNat 125

/-- A JSON value, as produced by Python's `json.loads`.  Objects keep their
textual order as an association list (Python dicts preserve insertion
order).  Numbers are modelled as integers. -/
inductive Json where
  | null : Json
  | bool : Bool → Json
  | num : Int → Json
  | str : String → Json
  | arr : List Json → Json
  | obj : List (String × Json) → Json

/-- Python truthiness of a JSON value (`if out:`): `None`, `False`, `0`,
the empty string, the empty list and the empty dict are falsy, everything
else truthy. -/
def pyTruthy : Json → Bool
  | .null => false
  | .bool b => b
  | .num n => n != 0
  | .str s => s != ""
  | .arr xs => !xs.isEmpty
  | .obj fs => !fs.isEmpty

/-- Python's `isinstance(x, (int, float))` view of a JSON value, with its
numeric content.  `bool` is a subclass of `int` in Python, so booleans
count as numbers (`True` is 1, `False` is 0). -/
def pyNumeric : Json → Option Int
  | .bool b => some (if b then 1 else 0)
  | .num n => some n
  | _ => none

/-! ### Python string helpers (`str.strip`, `str.lower`) -/

/-- Characters removed by Python's `str.strip()` (ASCII whitespace). -/
def pyIsSpace (c : Char) : Bool :=
  c = ' ' || c = '\t' || c = '\n' || c = '\r' || c = Char.ofNat 11 || c = Char.ofNat 12

/-- Python `str.strip()`. -/
def pyStrip (s : String) : String :=
  ⟨((s.data.dropWhile pyIsSpace).reverse.dropWhile pyIsSpace).reverse⟩

/-- Python `str.lower()`, modelled on the ASCII and Cyrillic ranges that
occur in this repository's data. -/
def pyLowerChar (c : Char) : Char :=
  if 'A' ≤ c ∧ c ≤ 'Z' then Char.ofNat (c.toNat + 32)
  else if 'А' ≤ c ∧ c ≤ 'Я' then Char.ofNat (c.toNat + 32)
  else if c = 'Ё' then 'ё'
  else c

/-- Python `str.lower()` lifted to strings. -/
def pyLower (s : String) : String := ⟨s.data.map pyLowerChar⟩

/-! ### `_dedup_strings` (provider, lines 50–58): strip each item, drop
empties, dedup by lowercased key, keep first-seen order, output the
*stripped* form. -/

/-- Recursion worker for `_dedup_strings`: `seen` is the set of lowercased
keys already emitted. -/
def dedupStringsAux (seen : List String) : List String → List String
  | [] => []
  | it :: rest =>
    let t := pyStrip it
    let k := pyLower t
    if t ≠ "" ∧ k ∉ seen then t :: dedupStringsAux (k :: seen) rest
    else dedupStringsAux seen rest

/-- Model of `_dedup_strings(items)` from the provider. -/
def dedup_strings (items : List String) : List String := dedupStringsAux [] items

/-! ### `UploadProfessionDto._clean_skills` (dto.py, lines 14–27): keep
string entries, strip, drop empties, dedup by *exact* (case-sensitive)
string, first-seen order. -/

/-- Recursion worker for `_clean_skills`. -/
def cleanSkillsAux (seen : List String) : List Json → List String
  | [] => []
  | .str s :: rest =>
    let t := pyStrip s
    if t ≠ "" ∧ t ∉ seen then t :: cleanSkillsAux (t :: seen) rest
    else cleanSkillsAux seen rest
  | _ :: rest => cleanSkillsAux seen rest

/-- Model of `_clean_skills(v)` from `UploadProfessionDto`: non-list input becomes
the empty list, list input is cleaned entrywise. -/
def clean_skills (v : Json) : List String :=
  match v with
  | .arr xs => cleanSkillsAux [] xs
  | _ => []

/-! ### The JSON serializer (model of `json.dumps` restricted to the
integral fragment).  Compact separators; the escapes are the ones needed
for well-formed strings (see `wfChar`). -/

/-- Digit character for a value below ten. -/
def digitCh (d : Nat) : Char := Char.ofNat (48 + d)

/-- Fuel-indexed decimal digits of a natural number (most significant
first).  Correct whenever `n < 10 ^ fuel`. -/
def natDigitsAux : Nat → Nat → List Char
  | 0, _ => []
  | fuel + 1, n =>
    if n < 10 then [digitCh n]
    else natDigitsAux fuel (n / 10) ++ [digitCh (n % 10)]

/-- Decimal digits of a natural number, most significant first. -/
def natDigits (n : Nat) : List Char := natDigitsAux (n + 1) n

/-- Decimal representation of an integer, as Python prints it. -/
def intChars (i : Int) : List Char :=
  if i < 0 then '-' :: natDigits i.natAbs else natDigits i.toNat

/-- JSON string escaping for one character. -/
def escChar (c : Char) : List Char :=
  if c = '"' then ['\\', '"']
  else if c = '\\' then ['\\', '\\']
  else if c = '\n' then ['\\', 'n']
  else if c = '\t' then ['\\', 't']
  else if c = '\r' then ['\\', 'r']
  else [c]

/-- Serialization of a JSON string (quotes plus escaped body). -/
def serStr (s : String) : List Char := '"' :: s.data.flatMap escChar ++ ['"']

mutual

/-- Serialization of a JSON value (model of `json.dumps`). -/
def serV : Json → List Char
  | .null => ['n', 'u', 'l', 'l']
  | .bool false => ['f', 'a', 'l', 's', 'e']
  | .bool true => ['t', 'r', 'u', 'e']
  | .num i => intChars i
  | .str s => serStr s
  | .arr xs => '[' :: serL xs ++ [']']
  | .obj fs => lbrace :: serO fs ++ [rbrace]

/-- Serialization of array elements, comma-separated. -/
def serL : List Json → List Char
  | [] => []
  | [x] => serV x
  | x :: y :: ys => serV x ++ ',' :: serL (y :: ys)

/-- Serialization of object fields, comma-separated. -/
def serO : List (String × Json) → List Char
  | [] => []
  | [(k, v)] => serStr k ++ ':' :: serV v
  | (k, v) :: g :: gs => serStr k ++ ':' :: serV v ++ ',' :: serO (g :: gs)

end

/-- Model of `json.dumps` on the modelled fragment. -/
def dumps (j : Json) : String := ⟨serV j⟩

/-! ### The JSON parser (model of `json.loads`). -/

/-- JSON insignificant whitespace. -/
def isWsB (c : Char) : Bool := c = ' ' || c = '\t' || c = '\n' || c = '\r'

/-- Skip insignificant whitespace. -/
def skipWs : List Char → List Char
  | [] => []
  | c :: cs => if isWsB c then skipWs cs else c :: cs

/-- Decode one escape character after a backslash. -/
def unescChar (c : Char) : Option Char :=
  if c = '"' then some '"'
  else if c = '\\' then some '\\'
  else if c = '/' then some '/'
  else if c = 'n' then some '\n'
  else if c = 't' then some '\t'
  else if c = 'r' then some '\r'
  else if c = 'b' then some (Char.ofNat 8)
  else if c = 'f' then some (Char.ofNat 12)
  else none

mutual

/-- Parse the body of a JSON string after the opening quote; raw control
characters are rejected, as in Python's strict mode. -/
def parseStrBody : List Char → Option (List Char × List Char)
  | [] => none
  | c :: cs =>
    if c = '"' then some ([], cs)
    else if c = '\\' then parseEsc cs
    else if c.toNat < 32 then none
    else do
      let p ← parseStrBody cs
      some (c :: p.1, p.2)

/-- Parse the remainder of a string body after a backslash. -/
def parseEsc : List Char → Option (List Char × List Char)
  | [] => none
  | e :: rest => do
    let u ← unescChar e
    let p ← parseStrBody rest
    some (u :: p.1, p.2)

end

/-- Decimal digit test (the `0`–`9` character class of the JSON number
grammar). -/
def isDigitCh (c : Char) : Bool := 48 ≤ c.toNat && c.toNat ≤ 57

/-- Longest digit run at the head of the input. -/
def takeDigits : List Char → List Char × List Char
  | [] => ([], [])
  | c :: cs =>
    if isDigitCh c then
      let p := takeDigits cs
      (c :: p.1, p.2)
    else ([], c :: cs)

/-- Value of a digit string (most significant first), with accumulator. -/
def digitsToNat (acc : Nat) : List Char → Nat
  | [] => acc
  | c :: cs => digitsToNat (acc * 10 + (c.toNat - 48)) cs

/-- Parse an unsigned JSON integer: at least one digit, no redundant
leading zero, and no fractional or exponent continuation (floats are out
of the model, see the header comment). -/
def parseNumNat (cs : List Char) : Option (Nat × List Char) :=
  match takeDigits cs with
  | ([], _) => none
  | (d :: ds, rest) =>
    if d = '0' ∧ ds ≠ [] then none
    else
      match rest with
      | c :: _ =>
        if c = '.' ∨ c = 'e' ∨ c = 'E' then none
        else some (digitsToNat 0 (d :: ds), rest)
      | [] => some (digitsToNat 0 (d :: ds), rest)

/-- Parse a JSON integer with optional leading minus. -/
def parseNum (cs : List Char) : Option (Int × List Char) :=
  match cs with
  | [] => none
  | c :: rest =>
    if c = '-' then (parseNumNat rest).map (fun p => (-(p.1 : Int), p.2))
    else (parseNumNat (c :: rest)).map (fun p => ((p.1 : Int), p.2))

/-- Condition on the text that follows a serialized number: its first
character must not extend the number token (a digit, decimal point or
exponent marker would). -/
def restOk : List Char → Bool
  | [] => true
  | c :: _ => !(isDigitCh c || c = '.' || c = 'e' || c = 'E')

mutual

/-- Fuel-indexed recursive-descent parser for one JSON value. -/
def pVal : Nat → List Char → Option (Json × List Char)
  | 0, _ => none
  | Nat.succ f, cs =>
    match skipWs cs with
    | [] => none
    | c :: cs' =>
      if c = 'n' then
        match cs' with
        | 'u' :: 'l' :: 'l' :: r => some (Json.null, r)
        | _ => none
      else if c = 't' then
        match cs' with
        | 'r' :: 'u' :: 'e' :: r => some (Json.bool true, r)
        | _ => none
      else if c = 'f' then
        match cs' with
        | 'a' :: 'l' :: 's' :: 'e' :: r => some (Json.bool false, r)
        | _ => none
      else if c = '"' then
        (parseStrBody cs').map (fun p => (Json.str ⟨p.1⟩, p.2))
      else if c = '[' then
        match skipWs cs' with
        | [] => none
        | d :: r =>
          if d = ']' then some (Json.arr [], r)
          else (pElems f (d :: r)).map (fun p => (Json.arr p.1, p.2))
      else if c = lbrace then
        match skipWs cs' with
        | [] => none
        | d :: r =>
          if d = rbrace then some (Json.obj [], r)
          else (pFields f (d :: r)).map (fun p => (Json.obj p.1, p.2))
      else
        (parseNum (c :: cs')).map (fun p => (Json.num p.1, p.2))

/-- Parse one or more comma-separated array elements up to `]`. -/
def pElems : Nat → List Char → Option (List Json × List Char)
  | 0, _ => none
  | Nat.succ f, cs =>
    match pVal f cs with
    | none => none
    | some (v, r) =>
      match skipWs r with
      | [] => none
      | c :: r2 =>
        if c = ',' then (pElems f r2).map (fun p => (v :: p.1, p.2))
        else if c = ']' then some ([v], r2)
        else none

/-- Parse one or more comma-separated object fields up to the closing
brace. -/
def pFields : Nat → List Char → Option (List (String × Json) × List Char)
  | 0, _ => none
  | Nat.succ f, cs =>
    match skipWs cs with
    | [] => none
    | c :: cs' =>
      if c = '"' then
        match parseStrBody cs' with
        | none => none
        | some (k, r) =>
          match skipWs r with
          | [] => none
          | c2 :: r2 =>
            if c2 = ':' then
              match pVal f r2 with
              | none => none
              | some (v, r3) =>
                match skipWs r3 with
                | [] => none
                | c3 :: r4 =>
                  if c3 = ',' then
                    (pFields f r4).map (fun p => ((⟨k⟩, v) :: p.1, p.2))
                  else if c3 = rbrace then some ([(⟨k⟩, v)], r4)
                  else none
            else none
      else none

end

/-- Model of `json.loads` on the modelled fragment: parse one value, then require
only trailing whitespace (the "Extra data" check).  `none` models a raised
`JSONDecodeError`. -/
def json_loads (s : String) : Option Json :=
  match pVal (2 * (s.length + 1)) s.data with
  | some (v, rest) => if skipWs rest = [] then some v else none
  | none => none

/-- Index of the first occurrence of a character (`str.find`, with `none`
for Python's `-1`). -/
def findIdx (c : Char) : List Char → Option Nat
  | [] => none
  | x :: xs => if x = c then some 0 else (findIdx c xs).map (· + 1)

/-- Index of the last occurrence of a character (`str.rfind`). -/
def rfindIdx (c : Char) (cs : List Char) : Option Nat :=
  (findIdx c cs.reverse).map (fun k => cs.length - 1 - k)

/-- The salvage branch of `_safe_json`: decode the span from the first
opening to the last closing brace (`s.find` and `s.rfind`); on any
failure, the empty dict. -/
def salvage (s : String) : Json :=
  match findIdx lbrace s.data, rfindIdx rbrace s.data with
  | some i, some j =>
    if i < j then
      match json_loads ⟨(s.data.drop i).take (j + 1 - i)⟩ with
      | some v => v
      | none => Json.obj []
    else Json.obj []
  | _, _ => Json.obj []

/-- Model of `_safe_json(s)` (provider, lines 36–47): strict decode of `s or "{}"`;
on failure, salvage the brace span.  Total — the Python function never
raises. -/
def safe_json (s : String) : Json :=
  match json_loads (if s = "" then "\x7b\x7d" else s) with
  | some v => v
  | none => salvage s

/-! ### Python dict operations on association lists. -/

/-- A Python dict with string keys and JSON values, in insertion order. -/
abbrev PyDict := List (String × Json)

/-- Python `d.get(k)` and `d[k]`: value at the first matching key. -/
def dGet (d : PyDict) (k : String) : Option Json :=
  match d with
  | [] => none
  | (k', v) :: rest => if k' = k then some v else dGet rest k

/-- Python `k in d`. -/
def hasKey (d : PyDict) (k : String) : Bool := (dGet d k).isSome

/-- Python `d.setdefault(k, v)`: insert at the end only when the key is absent. -/
def setdefault (d : PyDict) (k : String) (v : Json) : PyDict :=
  if hasKey d k then d else d ++ [(k, v)]

/-- Python `d[k] = v`: overwrite in place, or append when the key is absent. -/
def dictSet (d : PyDict) (k : String) (v : Json) : PyDict :=
  match d with
  | [] => [(k, v)]
  | (k', v') :: rest => if k' = k then (k', v) :: rest else (k', v') :: dictSet rest k v

/-! ### `get_profession_detail` normalization (provider, lines 267–287).
The parameter `out0` is the mapping returned by the call ladder; `name` is
the originally requested profession name. -/

/-- The `if not isinstance(out.get("skills"), list): out["skills"] = []`
step of `get_profession_detail`. -/
def skillsFix (d : PyDict) : PyDict :=
  match dGet d "skills" with
  | some (Json.arr _) => d
  | _ => dictSet d "skills" (Json.arr [])

/-- The six `setdefault` calls of `get_profession_detail` followed by the
skills coercion. -/
def gpdDefaults (name : String) (d : PyDict) : PyDict :=
  skillsFix
    (setdefault
      (setdefault
        (setdefault
          (setdefault
            (setdefault (setdefault d "name" (Json.str name)) "category" (Json.str "BUSINESS"))
            "description" Json.null)
          "startSalary" Json.null)
        "endSalary" Json.null)
      "popularity" Json.null)

/-- The salary-sanity step of `get_profession_detail`: when both bounds
are numeric (`isinstance(x, (int, float))`, which includes booleans) and
start exceeds end, assign the two original values swapped. -/
def salaryFix (d : PyDict) : PyDict :=
  match dGet d "startSalary", dGet d "endSalary" with
  | some sv, some ev =>
    match pyNumeric sv, pyNumeric ev with
    | some si, some ei =>
      if ei < si then dictSet (dictSet d "startSalary" ev) "endSalary" sv else d
    | _, _ => d
  | _, _ => d

/-- The normalization performed by `get_profession_detail` after the
ladder call: fill defaults, coerce non-list skills to `[]`, and swap the
salary bounds when both are numeric with start greater than end. -/
def get_profession_detail (name : String) (out0 : PyDict) : PyDict :=
  salaryFix (gpdDefaults name out0)

/-! ### Enum vocabularies and the `UploadProfessionDto` validator. -/

/-- Categories list `PROFESSION_CATEGORY_VALUES` (provider, lines 63–66).  Modelled from
the spec: `src/domain/enums.py` (imported by `dto.py` and `main.py`) is
not present under `src/`; the spec (§3, §6) fixes the category vocabulary,
and the provider keeps this mirror list. -/
def PROFESSION_CATEGORY_VALUES : List String :=
  ["TECHNOLOGY", "MEDICINE", "EDUCATION", "FINANCE", "ENGINEERING",
   "ARTS", "BUSINESS", "LAW", "SCIENCE", "SOCIAL_SCIENCES", "GOVERNMENT", "AGRICULTURE"]

/-- Popularity list `POPULARITY_VALUES` (provider, line 67).  Modelled from the spec for
the same reason as `PROFESSION_CATEGORY_VALUES`. -/
def POPULARITY_VALUES : List String := ["LOW", "MEDIUM", "HIGH"]

/-- The validated record produced by `UploadProfessionDto`. -/
structure UploadProfession where
  name : String
  category : String
  description : Option String
  startSalary : Option Int
  endSalary : Option Int
  popularity : Option String
  skills : List String
deriving DecidableEq

/-- Validation of one optional non-negative salary field
(`Optional[float]`, `ge=0`; numbers modelled as integers). -/
def optSalary : Option Json → Except String (Option Int)
  | none => .ok none
  | some Json.null => .ok none
  | some (Json.num n) => if 0 ≤ n then .ok (some n) else .error "ValidationError"
  | some _ => .error "ValidationError"

/-- Model of `UploadProfessionDto._range_ok` (dto.py, lines 29–36): when both
salaries are present and the validated `endSalary` is below `startSalary`,
the end value is replaced by the start value instead of failing the row. -/
def range_ok (v start : Option Int) : Option Int :=
  match v, start with
  | some e, some s => if e < s then some s else some e
  | _, _ => v

/-- Validation of an optional string field (`Optional[str]`). -/
def optStr : Option Json → Except String (Option String)
  | none => .ok none
  | some Json.null => .ok none
  | some (Json.str s) => .ok (some s)
  | some _ => .error "ValidationError"

/-- Validation of an optional enum field against a vocabulary. -/
def optEnum (values : List String) : Option Json → Except String (Option String)
  | none => .ok none
  | some Json.null => .ok none
  | some (Json.str s) => if s ∈ values then .ok (some s) else .error "ValidationError"
  | some _ => .error "ValidationError"

/-- Model of `UploadProfessionDto(**d)`: field validation per dto.py.  Pydantic
collects every field error and raises one `ValidationError` when any
exists; the model reports the first error, which has the same
success/failure verdict and the same value on success. -/
def validateUpload (d : PyDict) : Except String UploadProfession := do
  let nm ← match dGet d "name" with
    | some (Json.str s) => if 1 ≤ s.length then Except.ok s else Except.error "ValidationError"
    | _ => Except.error "ValidationError"
  let cat ← match dGet d "category" with
    | some (Json.str s) =>
        if s ∈ PROFESSION_CATEGORY_VALUES then Except.ok s else Except.error "ValidationError"
    | _ => Except.error "ValidationError"
  let desc ← optStr (dGet d "description")
  let sSal ← optSalary (dGet d "startSalary")
  let eSal0 ← optSalary (dGet d "endSalary")
  let pop ← optEnum POPULARITY_VALUES (dGet d "popularity")
  let skills := clean_skills ((dGet d "skills").getD Json.null)
  Except.ok ⟨nm, cat, desc, sSal, range_ok eSal0 sSal, pop, skills⟩

/-! ### The degrading call ladder (`_json_schema_safe`, provider lines
235–253).  A layer is modelled by the list of values its successive
attempts would produce (one entry per retry); `_try` returns the first
truthy attempt, or the last (falsy) attempt, or the empty dict when the
retry count is zero. -/

/-- Model of `_try(fn)`: first truthy attempt, else the final falsy attempt, else
the empty dict. -/
def tryLayer : List Json → Json
  | [] => Json.obj []
  | a :: rest =>
    if pyTruthy a then a
    else
      match rest with
      | [] => a
      | b :: bs => tryLayer (b :: bs)

/-- Model of `_json_schema_safe`: try the tool-augmented layer, then the plain
layer, then the chat layer; the two booleans record whether the plain and
the chat layer were invoked. -/
def json_schema_safe (l1 l2 l3 : List Json) : Json × Bool × Bool :=
  let o1 := tryLayer l1
  if pyTruthy o1 then (o1, false, false)
  else
    let o2 := tryLayer l2
    if pyTruthy o2 then (o2, true, false)
    else
      let o3 := tryLayer l3
      (if pyTruthy o3 then o3 else Json.obj [], true, true)

/-- Model of `_responses_call` at its boundary (provider lines 192–212): a raised
transport error — `RateLimitError`, `APITimeoutError`,
`APIConnectionError`, `InternalServerError`, `BadRequestError`, or any
other `Exception` — becomes the empty dict; response text is salvage
parsed. -/
def responses_call : Except String String → Json
  | .error _ => Json.obj []
  | .ok text => safe_json text

/-- Model of `_chat_call` at its boundary (provider lines 214–233): same error
discipline as `_responses_call`. -/
def chat_call : Except String String → Json
  | .error _ => Json.obj []
  | .ok text => safe_json text

/-- The ladder over raw per-attempt transport outcomes. -/
def json_schema_safe_raw (r1 r2 r3 : List (Except String String)) : Json × Bool × Bool :=
  json_schema_safe (r1.map responses_call) (r2.map responses_call) (r3.map chat_call)

/-! ### Stage A: `list_profession_names` (provider lines 256–264) after
the ladder call, and the merge/seed logic of `_stage_a_collect_names`
(main.py lines 53–77). -/

/-- Python iteration over a JSON value (`for n in names`): lists yield
elements, strings yield their characters as one-character strings, dicts
yield their keys; other values raise `TypeError`. -/
def pyIter : Json → Except String (List Json)
  | .arr xs => .ok xs
  | .str s => .ok (s.data.map (fun c => Json.str ⟨[c]⟩))
  | .obj fs => .ok (fs.map (fun kv => Json.str kv.1))
  | _ => .error "TypeError"

/-- The `isinstance(n, str)` filter. -/
def asStr : Json → Option String
  | .str s => some s
  | _ => none

/-- The post-ladder body of `list_profession_names`: extract `names`
(`out.get("names") or []`), iterate it, keep string entries, dedup
case-insensitively.  The parameter is the ladder's output; a non-dict
output raises `AttributeError` at `out.get`. -/
def list_profession_names (out : Json) : Except String (List String) :=
  match out with
  | .obj fs =>
    let raw := (dGet fs "names").getD Json.null
    let it := if pyTruthy raw then raw else Json.arr []
    match pyIter it with
    | .error e => .error e
    | .ok elems => .ok (dedup_strings (elems.filterMap asStr))
  | _ => .error "AttributeError"

/-- The per-category seed lists of `seed_names` (provider lines 290–315). -/
def seedBase (c : String) : List String :=
  if c = "TECHNOLOGY" then
    ["Разработчик программного обеспечения", "Инженер по данным", "Инженер DevOps",
     "Специалист по кибербезопасности", "Аналитик данных", "ML-инженер",
     "Системный администратор", "Тестировщик (QA-инженер)",
     "Архитектор программного обеспечения", "Продакт-менеджер"]
  else if c = "MEDICINE" then
    ["Врач-терапевт", "Хирург", "Стоматолог", "Медсестра", "Фармацевт",
     "Радиолог", "Анестезиолог", "Педиатр", "Врач общей практики", "Лаборант"]
  else if c = "BUSINESS" then
    ["Финансовый аналитик", "Маркетолог", "Бизнес-аналитик", "Менеджер по продажам",
     "HR-менеджер", "Логист", "Закупщик", "Операционный менеджер", "Аудитор", "Бухгалтер"]
  else []

/-- Model of `seed_names(categories)`: per requested category when the list is
truthy, otherwise the global seed over the three base categories in dict
order. -/
def seed_names (categories : Option (List String)) : List String :=
  match categories with
  | some (c :: cs) => dedup_strings ((c :: cs).flatMap seedBase)
  | _ => dedup_strings (seedBase "TECHNOLOGY" ++ seedBase "MEDICINE" ++ seedBase "BUSINESS")

/-- The merge dedup of `_stage_a_collect_names` (main.py lines 68–73):
keyed by the lowercased strip, keeps the *original* (unstripped) first
occurrence, drops falsy entries. -/
def stageADedupAux (seen : List String) : List String → List String
  | [] => []
  | n :: rest =>
    let k := pyLower (pyStrip n)
    if n ≠ "" ∧ k ∉ seen then n :: stageADedupAux (k :: seen) rest
    else stageADedupAux seen rest

/-- The tail of `_stage_a_collect_names` (main.py lines 68–77): dedup the
merged names; when the result is empty substitute `seed_names`. -/
def stage_a_finalize (collected : List String) (categories : Option (List String)) :
    List String :=
  let dedup := stageADedupAux [] collected
  if dedup = [] then seed_names categories else dedup

/-! ### Stage B: `_stage_b_enrich_details` (main.py lines 80–107).  Each
unit runs `get_profession_detail` on the ladder output, validates, and
appends exactly one entry to the accepted rows or the preflight report;
every exception is caught at the unit boundary. -/

/-- One stage-B unit (`_one`): the parameter is the ladder's output for
this name.  A non-dict ladder output makes `out.setdefault` raise
`AttributeError`; a validation failure raises `ValidationError`; both are
converted to a preflight entry tagged with the exception class name. -/
def processDict (name : String) (fs : PyDict) : UploadProfession ⊕ (String × String) :=
  match validateUpload (get_profession_detail name fs) with
  | .ok r => .inl r
  | .error en => .inr (name, "validation_or_fetch_error:" ++ en)

/-- One stage-B unit, dispatching on the shape of the ladder output. -/
def processOne (name : String) (ladderOut : Json) :
    UploadProfession ⊕ (String × String) :=
  match ladderOut with
  | .obj fs => processDict name fs
  | _ => .inr (name, "validation_or_fetch_error:AttributeError")

/-- The stage-B accumulation over units listed in completion order:
accepted rows and preflight entries. -/
def stage_b : List (String × Json) → List UploadProfession × List (String × String)
  | [] => ([], [])
  | (n, o) :: rest =>
    let p := stage_b rest
    match processOne n o with
    | .inl r => (r :: p.1, p.2)
    | .inr e => (p.1, e :: p.2)

/-! ### The stage-B admission gate (`asyncio.Semaphore(CONCURRENCY)` and
`async with sem` in main.py lines 85–99), as a labelled transition
system.  A unit is `pending` before `async with sem`, `active` while it
holds a slot (issuing its network call), and `finished` after the
unconditional release (success or failure alike). -/

/-- Phase of one stage-B unit with respect to the semaphore. -/
inductive UnitPhase where
  | pending : UnitPhase
  | active : UnitPhase
  | finished : UnitPhase
deriving DecidableEq

/-- Cooperative-scheduler state: per-unit phases plus free slots. -/
structure FanoutState where
  units : List UnitPhase
  avail : Nat
deriving DecidableEq

/-- Number of units currently holding a semaphore slot. -/
def activeCount : List UnitPhase → Nat
  | [] => 0
  | .active :: us => activeCount us + 1
  | _ :: us => activeCount us

/-- The semaphore discipline: a pending unit may turn active only by
consuming a free slot (`acquire`); an active unit releases its slot
unconditionally when it finishes (`release`). -/
inductive FanoutStep : FanoutState → FanoutState → Prop where
  | acquire (units : List UnitPhase) (i : Nat) (a : Nat)
      (hu : units[i]? = some UnitPhase.pending) :
      FanoutStep ⟨units, a + 1⟩ ⟨units.set i UnitPhase.active, a⟩
  | release (units : List UnitPhase) (i : Nat) (a : Nat)
      (hu : units[i]? = some UnitPhase.active) :
      FanoutStep ⟨units, a⟩ ⟨units.set i UnitPhase.finished, a + 1⟩

/-- Initial state: `n` pending units, `C` free slots. -/
def initState (n C : Nat) : FanoutState := ⟨List.replicate n UnitPhase.pending, C⟩

/-- Characters representable by the modelled serializer without `\uXXXX`
escapes: printable characters plus the three escaped control characters. -/
def wfChar (c : Char) : Bool := 32 ≤ c.toNat || c = '\n' || c = '\t' || c = '\r'

/-- Well-formed string: every character is representable. -/
def wfStr (s : String) : Bool := s.data.all wfChar

mutual

/-- Well-formed JSON value: every string (value or key) is representable. -/
def wfV : Json → Bool
  | .null => true
  | .bool _ => true
  | .num _ => true
  | .str s => wfStr s
  | .arr xs => wfL xs
  | .obj fs => wfO fs

/-- Well-formedness of array elements. -/
def wfL : List Json → Bool
  | [] => true
  | x :: xs => wfV x && wfL xs

/-- Well-formedness of object fields. -/
def wfO : List (String × Json) → Bool
  | [] => true
  | (k, v) :: fs => wfStr k && wfV v && wfO fs

end

mutual

/-- Fuel consumed by `pVal` on a serialized value. -/
def sizeV : Json → Nat
  | .null => 1
  | .bool _ => 1
  | .num _ => 1
  | .str _ => 1
  | .arr xs => 1 + sizeL xs
  | .obj fs => 1 + sizeO fs

/-- Fuel consumed by `pElems` on serialized elements. -/
def sizeL : List Json → Nat
  | [] => 1
  | x :: xs => 1 + sizeV x + sizeL xs

/-- Fuel consumed by `pFields` on serialized fields. -/
def sizeO : List (String × Json) → Nat
  | [] => 1
  | (_, v) :: fs => 1 + sizeV v + sizeO fs

end

/-- An opening brace occurring before a closing brace somewhere in the
string (the shape `_safe_json`'s salvage step needs). -/
def hasBraceSpan (s : String) : Prop :=
  ∃ i : Fin s.data.length, ∃ j : Fin s.data.length,
    i.val < j.val ∧ s.data.get i = lbrace ∧ s.data.get j = rbrace

instance hasBraceSpanDecidable (s : String) : Decidable (hasBraceSpan s) := by
  unfold hasBraceSpan
  infer_instance


/-! ## Lemmas about Python dict operations -/

theorem dGet_append (d d' : PyDict) (k : String) :
    dGet (d ++ d') k = ((dGet d k).map some).getD (dGet d' k) := by
  induction d with
  | nil => simp [dGet]
  | cons kv rest ih =>
    obtain ⟨k', v⟩ := kv
    by_cases h : k' = k <;> simp [dGet, h, ih]

theorem setdefault_of_present (d : PyDict) (k : String) (v w : Json)
    (h : dGet d k = some w) : setdefault d k v = d := by
  simp [setdefault, hasKey, h]

theorem dGet_setdefault_self (d : PyDict) (k : String) (v : Json) :
    dGet (setdefault d k v) k = some ((dGet d k).getD v) := by
  unfold setdefault hasKey
  cases h : dGet d k with
  | some w => simp [h]
  | none => simp [h, dGet_append, dGet]

theorem dGet_setdefault_other (d : PyDict) (k k' : String) (v : Json)
    (h : k' ≠ k) : dGet (setdefault d k v) k' = dGet d k' := by
  unfold setdefault hasKey
  cases hk : dGet d k with
  | some w => simp
  | none =>
    simp only [Option.isSome_none, Bool.false_eq_true, if_false]
    rw [dGet_append]
    have hone : dGet [(k, v)] k' = none := by simp [dGet, Ne.symm h]
    cases h2 : dGet d k' <;> simp [hone]

theorem dGet_dictSet_self (d : PyDict) (k : String) (v : Json) :
    dGet (dictSet d k v) k = some v := by
  induction d with
  | nil => simp [dictSet, dGet]
  | cons kv rest ih =>
    obtain ⟨k', w⟩ := kv
    by_cases h : k' = k <;> simp [dictSet, dGet, h, ih]

theorem dGet_dictSet_other (d : PyDict) (k k' : String) (v : Json)
    (h : k' ≠ k) : dGet (dictSet d k v) k' = dGet d k' := by
  induction d with
  | nil => simp [dictSet, dGet, Ne.symm h]
  | cons kv rest ih =>
    obtain ⟨k0, w⟩ := kv
    by_cases h0 : k0 = k
    · subst h0
      simp [dictSet, dGet, Ne.symm h]
    · simp [dictSet, dGet, h0, ih]

theorem dGet_skillsFix_other (d : PyDict) (k : String) (h : k ≠ "skills") :
    dGet (skillsFix d) k = dGet d k := by
  unfold skillsFix
  split
  · rfl
  · exact dGet_dictSet_other d "skills" k _ h

/-! ## Lemmas about `get_profession_detail` -/

theorem dGet_gpdDefaults_start (n : String) (d : PyDict) :
    dGet (gpdDefaults n d) "startSalary" = some ((dGet d "startSalary").getD Json.null) := by
  unfold gpdDefaults
  rw [dGet_skillsFix_other _ _ (by decide),
      dGet_setdefault_other _ _ _ _ (by decide),
      dGet_setdefault_other _ _ _ _ (by decide),
      dGet_setdefault_self,
      dGet_setdefault_other _ _ _ _ (by decide),
      dGet_setdefault_other _ _ _ _ (by decide),
      dGet_setdefault_other _ _ _ _ (by decide)]

theorem dGet_gpdDefaults_end (n : String) (d : PyDict) :
    dGet (gpdDefaults n d) "endSalary" = some ((dGet d "endSalary").getD Json.null) := by
  unfold gpdDefaults
  rw [dGet_skillsFix_other _ _ (by decide),
      dGet_setdefault_other _ _ _ _ (by decide),
      dGet_setdefault_self,
      dGet_setdefault_other _ _ _ _ (by decide),
      dGet_setdefault_other _ _ _ _ (by decide),
      dGet_setdefault_other _ _ _ _ (by decide),
      dGet_setdefault_other _ _ _ _ (by decide)]

theorem dGet_gpdDefaults_name (n : String) (d : PyDict) :
    dGet (gpdDefaults n d) "name" = some ((dGet d "name").getD (Json.str n)) := by
  unfold gpdDefaults
  rw [dGet_skillsFix_other _ _ (by decide),
      dGet_setdefault_other _ _ _ _ (by decide),
      dGet_setdefault_other _ _ _ _ (by decide),
      dGet_setdefault_other _ _ _ _ (by decide),
      dGet_setdefault_other _ _ _ _ (by decide),
      dGet_setdefault_other _ _ _ _ (by decide),
      dGet_setdefault_self]

theorem dGet_salaryFix_other (o : PyDict) (k : String)
    (h1 : k ≠ "startSalary") (h2 : k ≠ "endSalary") :
    dGet (salaryFix o) k = dGet o k := by
  unfold salaryFix
  split
  · split
    · split
      · rw [dGet_dictSet_other _ _ _ _ h2, dGet_dictSet_other _ _ _ _ h1]
      · rfl
    · rfl
  · rfl


theorem salaryFix_swap (o : PyDict) (sv ev : Json) (si ei : Int)
    (hs : dGet o "startSalary" = some sv) (he : dGet o "endSalary" = some ev)
    (hsn : pyNumeric sv = some si) (hen : pyNumeric ev = some ei) (hlt : ei < si) :
    salaryFix o = dictSet (dictSet o "startSalary" ev) "endSalary" sv := by
  unfold salaryFix
  simp only [hs, he, hsn, hen, if_pos hlt]

theorem salaryFix_id_of_null_start (o : PyDict)
    (hs : dGet o "startSalary" = some Json.null) : salaryFix o = o := by
  unfold salaryFix
  simp only [hs]
  cases h2 : dGet o "endSalary" with
  | none => rfl
  | some ev2 => simp [pyNumeric]

theorem salaryFix_id_of_null_end (o : PyDict)
    (he : dGet o "endSalary" = some Json.null) : salaryFix o = o := by
  unfold salaryFix
  simp only [he]
  cases h1 : dGet o "startSalary" with
  | none => rfl
  | some sv =>
    cases h3 : pyNumeric sv with
    | none => simp [h3]
    | some si0 => simp [h3, pyNumeric]

theorem salaryFix_sorted (o : PyDict) (u w : Json) (si ei : Int)
    (hs : dGet (salaryFix o) "startSalary" = some u)
    (he : dGet (salaryFix o) "endSalary" = some w)
    (hsn : pyNumeric u = some si) (hen : pyNumeric w = some ei) : si ≤ ei := by
  unfold salaryFix at hs he
  cases h1 : dGet o "startSalary" with
  | none =>
    simp only [h1] at hs
    exact Option.noConfusion hs
  | some sv =>
    simp only [h1] at hs he
    cases h2 : dGet o "endSalary" with
    | none =>
      simp only [h2] at he
      exact Option.noConfusion he
    | some ev =>
      simp only [h2] at hs he
      cases h3 : pyNumeric sv with
      | none =>
        simp only [h3] at hs
        rw [h1] at hs
        obtain rfl : sv = u := Option.some.inj hs
        rw [hsn] at h3
        exact Option.noConfusion h3
      | some si0 =>
        simp only [h3] at hs he
        cases h4 : pyNumeric ev with
        | none =>
          simp only [h4] at he
          rw [h2] at he
          obtain rfl : ev = w := Option.some.inj he
          rw [hen] at h4
          exact Option.noConfusion h4
        | some ei0 =>
          simp only [h4] at hs he
          by_cases hlt : ei0 < si0
          · rw [if_pos hlt] at hs he
            rw [dGet_dictSet_other _ _ _ _ (by decide), dGet_dictSet_self] at hs
            rw [dGet_dictSet_self] at he
            obtain rfl : ev = u := Option.some.inj hs
            obtain rfl : sv = w := Option.some.inj he
            rw [hsn] at h4
            rw [hen] at h3
            obtain rfl : si = ei0 := Option.some.inj h4
            obtain rfl : ei = si0 := Option.some.inj h3
            omega
          · rw [if_neg hlt] at hs he
            rw [h1] at hs
            rw [h2] at he
            obtain rfl : sv = u := Option.some.inj hs
            obtain rfl : ev = w := Option.some.inj he
            rw [hsn] at h3
            rw [hen] at h4
            obtain rfl : si = si0 := Option.some.inj h3
            obtain rfl : ei = ei0 := Option.some.inj h4
            omega

/-- C2 (confirmed): when both `startSalary` and `endSalary` are present
and numeric with start greater than end, `get_profession_detail`'s output
carries the two original values swapped, hence its numeric salary bounds
always satisfy start ≤ end and the dto's `_range_ok` clamp leaves such a
record untouched (never rejected for this reason); when one or both
salaries are absent from the input, the output carries the default-filled
originals unswapped. -/
theorem claim_C2 :
    (∀ (d : PyDict) (n : String) (sv ev : Json) (si ei : Int),
        dGet d "startSalary" = some sv → dGet d "endSalary" = some ev →
        pyNumeric sv = some si → pyNumeric ev = some ei → ei < si →
        dGet (get_profession_detail n d) "startSalary" = some ev ∧
        dGet (get_profession_detail n d) "endSalary" = some sv)
  ∧ (∀ (d : PyDict) (n : String) (u w : Json) (si ei : Int),
        dGet (get_profession_detail n d) "startSalary" = some u →
        dGet (get_profession_detail n d) "endSalary" = some w →
        pyNumeric u = some si → pyNumeric w = some ei →
        si ≤ ei ∧ range_ok (some ei) (some si) = some ei)
  ∧ (∀ (d : PyDict) (n : String),
        dGet d "startSalary" = none ∨ dGet d "endSalary" = none →
        dGet (get_profession_detail n d) "startSalary"
            = some ((dGet d "startSalary").getD Json.null) ∧
        dGet (get_profession_detail n d) "endSalary"
            = some ((dGet d "endSalary").getD Json.null)) := by
  refine ⟨?_, ?_, ?_⟩
  · intro d n sv ev si ei hs he hsn hen hlt
    have h1 : dGet (gpdDefaults n d) "startSalary" = some sv := by
      rw [dGet_gpdDefaults_start, hs]; rfl
    have h2 : dGet (gpdDefaults n d) "endSalary" = some ev := by
      rw [dGet_gpdDefaults_end, he]; rfl
    unfold get_profession_detail
    rw [salaryFix_swap _ _ _ _ _ h1 h2 hsn hen hlt]
    constructor
    · rw [dGet_dictSet_other _ _ _ _ (by decide), dGet_dictSet_self]
    · rw [dGet_dictSet_self]
  · intro d n u w si ei hs he hsn hen
    have hle := salaryFix_sorted (gpdDefaults n d) u w si ei hs he hsn hen
    exact ⟨hle, by rw [range_ok, if_neg (not_lt.2 hle)]⟩
  · intro d n habs
    unfold get_profession_detail
    have h1 := dGet_gpdDefaults_start n d
    have h2 := dGet_gpdDefaults_end n d
    cases habs with
    | inl ha =>
      have hnull : dGet (gpdDefaults n d) "startSalary" = some Json.null := by
        rw [h1, ha]; rfl
      rw [salaryFix_id_of_null_start _ hnull]
      exact ⟨h1, h2⟩
    | inr hb =>
      have hnull : dGet (gpdDefaults n d) "endSalary" = some Json.null := by
        rw [h2, hb]; rfl
      rw [salaryFix_id_of_null_end _ hnull]
      exact ⟨h1, h2⟩

/-- C10 (confirmed): the requested name is substituted only when the
`name` key is entirely absent from the ladder output; a present `name` is
kept verbatim, and a present-but-empty `name` fails the dto's
`min_length=1` validation so that the stage-B unit produces a
`RejectionEntry` instead of a healed record. -/
theorem claim_C10 :
    (∀ (n : String) (d : PyDict), dGet d "name" = none →
        dGet (get_profession_detail n d) "name" = some (Json.str n))
  ∧ (∀ (n : String) (d : PyDict) (v : Json), dGet d "name" = some v →
        dGet (get_profession_detail n d) "name" = some v)
  ∧ (∀ (n : String) (d : PyDict), dGet d "name" = some (Json.str "") →
        validateUpload (get_profession_detail n d) = Except.error "ValidationError")
  ∧ (∀ (n : String) (d : PyDict), dGet d "name" = some (Json.str "") →
        processOne n (Json.obj d)
          = Sum.inr (n, "validation_or_fetch_error:ValidationError")) := by
  have hname : ∀ (n : String) (d : PyDict),
      dGet (get_profession_detail n d) "name"
        = some ((dGet d "name").getD (Json.str n)) := by
    intro n d
    unfold get_profession_detail
    rw [dGet_salaryFix_other _ _ (by decide) (by decide), dGet_gpdDefaults_name]
  have herr : ∀ (n : String) (d : PyDict), dGet d "name" = some (Json.str "") →
      validateUpload (get_profession_detail n d) = Except.error "ValidationError" := by
    intro n d h
    have h0 : dGet (get_profession_detail n d) "name" = some (Json.str "") := by
      rw [hname, h]; rfl
    unfold validateUpload
    rw [h0]
    rfl
  refine ⟨?_, ?_, herr, ?_⟩
  · intro n d h
    rw [hname, h]
    rfl
  · intro n d v h
    rw [hname, h]
    rfl
  · intro n d h
    have hstep : processOne n (Json.obj d) = processDict n d := rfl
    rw [hstep]
    unfold processDict
    rw [herr n d h]
    rfl

/-- Witness for C2 at concrete inputs. -/
theorem claim_C2_witness :
    dGet (get_profession_detail "X"
        [("startSalary", Json.num 100), ("endSalary", Json.num 50)]) "startSalary"
      = some (Json.num 50) ∧
    dGet (get_profession_detail "X"
        [("startSalary", Json.num 100), ("endSalary", Json.num 50)]) "endSalary"
      = some (Json.num 100) ∧
    dGet (get_profession_detail "Y" [("endSalary", Json.num 7)]) "startSalary"
      = some Json.null :=
  ⟨(claim_C2.1 [("startSalary", Json.num 100), ("endSalary", Json.num 50)] "X"
      (Json.num 100) (Json.num 50) 100 50 rfl rfl rfl rfl (by decide)).1,
   (claim_C2.1 [("startSalary", Json.num 100), ("endSalary", Json.num 50)] "X"
      (Json.num 100) (Json.num 50) 100 50 rfl rfl rfl rfl (by decide)).2,
   (claim_C2.2.2 [("endSalary", Json.num 7)] "Y" (Or.inl rfl)).1⟩

/-- Witness for C10 at concrete inputs. -/
theorem claim_C10_witness :
    dGet (get_profession_detail "Req" []) "name" = some (Json.str "Req") ∧
    dGet (get_profession_detail "Req" [("name", Json.str "LLM")]) "name"
      = some (Json.str "LLM") ∧
    validateUpload (get_profession_detail "Req" [("name", Json.str "")])
      = Except.error "ValidationError" ∧
    processOne "Req" (Json.obj [("name", Json.str "")])
      = Sum.inr ("Req", "validation_or_fetch_error:ValidationError") :=
  ⟨claim_C10.1 "Req" [] rfl,
   claim_C10.2.1 "Req" [("name", Json.str "LLM")] (Json.str "LLM") rfl,
   claim_C10.2.2.1 "Req" [("name", Json.str "")] rfl,
   claim_C10.2.2.2 "Req" [("name", Json.str "")] rfl⟩

/-! ## Claims C3–C9 -/

/-- C3 counterexample: on the spec's own example input the skills cleaner
does *not* return `["Python", "Go"]` — `" python "` strips to `"python"`,
which is not an exact-string duplicate of `"Python"` and is therefore
kept. -/
theorem claim_C3_counterexample :
    clean_skills (Json.arr [Json.str "Python", Json.str " python ", Json.str "",
      Json.str "Go", Json.str "Go"]) ≠ ["Python", "Go"] := by decide

/-- C3 (corrected): the skills-cleaning step applied to
`["Python", " python ", "", "Go", "Go"]` produces exactly
`["Python", "python", "Go"]` — each entry stripped, empty strings dropped,
exact-string (case-sensitive) duplicates removed, first-seen order kept.
(The claimed output `["Python", "Go"]` contradicts the claimed
case-sensitive dedup rule, which the code implements.) -/
theorem claim_C3_amended :
    clean_skills (Json.arr [Json.str "Python", Json.str " python ", Json.str "",
      Json.str "Go", Json.str "Go"]) = ["Python", "python", "Go"] := rfl

theorem pyTruthy_obj_of_ne_nil (fs : List (String × Json)) (h : fs ≠ []) :
    pyTruthy (Json.obj fs) = true := by
  cases fs with
  | nil => exact absurd rfl h
  | cons f rest => rfl

/-- C4 (confirmed): when the tool-augmented layer's retry loop yields a
non-empty mapping, the ladder returns exactly that mapping and neither the
plain layer nor the chat layer is invoked. -/
theorem claim_C4 (l1 l2 l3 : List Json) (fs : List (String × Json))
    (h1 : tryLayer l1 = Json.obj fs) (h2 : fs ≠ []) :
    json_schema_safe l1 l2 l3 = (Json.obj fs, false, false) := by
  simp [json_schema_safe, h1, pyTruthy_obj_of_ne_nil fs h2]

/-- Witness for C4 at concrete layer oracles. -/
theorem claim_C4_witness :
    json_schema_safe [Json.obj [("a", Json.num 1)]] [Json.obj [("b", Json.num 2)]] []
      = (Json.obj [("a", Json.num 1)], false, false) :=
  claim_C4 [Json.obj [("a", Json.num 1)]] [Json.obj [("b", Json.num 2)]] []
    [("a", Json.num 1)] rfl (by simp)

theorem tryLayer_falsy (l : List Json) (h : ∀ a ∈ l, pyTruthy a = false) :
    pyTruthy (tryLayer l) = false := by
  induction l with
  | nil => rfl
  | cons a rest ih =>
    have ha := h a (List.mem_cons_self a rest)
    cases rest with
    | nil => simp [tryLayer, ha]
    | cons b bs =>
      have := ih (fun x hx => h x (List.mem_cons_of_mem a hx))
      simpa [tryLayer, ha] using this

/-- C5 (confirmed): any transport-level failure is converted to the empty
dict at the layer boundary, and when every attempt of all three layers
comes back falsy (empty) the ladder returns the empty mapping — by
construction it is a total function, so it cannot raise. -/
theorem claim_C5 :
    (∀ e : String, responses_call (Except.error e) = Json.obj [])
  ∧ (∀ e : String, chat_call (Except.error e) = Json.obj [])
  ∧ (∀ r1 r2 r3 : List (Except String String),
      (∀ x ∈ r1, pyTruthy (responses_call x) = false) →
      (∀ x ∈ r2, pyTruthy (responses_call x) = false) →
      (∀ x ∈ r3, pyTruthy (chat_call x) = false) →
      (json_schema_safe_raw r1 r2 r3).1 = Json.obj []) := by
  refine ⟨fun e => rfl, fun e => rfl, ?_⟩
  intro r1 r2 r3 h1 h2 h3
  have t1 : pyTruthy (tryLayer (r1.map responses_call)) = false := by
    refine tryLayer_falsy _ ?_
    intro a ha
    obtain ⟨x, hx, rfl⟩ := List.mem_map.1 ha
    exact h1 x hx
  have t2 : pyTruthy (tryLayer (r2.map responses_call)) = false := by
    refine tryLayer_falsy _ ?_
    intro a ha
    obtain ⟨x, hx, rfl⟩ := List.mem_map.1 ha
    exact h2 x hx
  have t3 : pyTruthy (tryLayer (r3.map chat_call)) = false := by
    refine tryLayer_falsy _ ?_
    intro a ha
    obtain ⟨x, hx, rfl⟩ := List.mem_map.1 ha
    exact h3 x hx
  simp [json_schema_safe_raw, json_schema_safe, t1, t2, t3]

/-- Witness for C5: one transport error per outer layer, one empty
response text for the middle layer. -/
theorem claim_C5_witness :
    (json_schema_safe_raw [Except.error "APITimeoutError"] [Except.ok ""]
      [Except.error "RateLimitError"]).1 = Json.obj [] := by
  refine claim_C5.2.2 _ _ _ ?_ ?_ ?_ <;>
    · intro x hx
      rw [List.mem_singleton.1 hx]
      rfl

/-- C6 (code_bug): the spec says a `names` field that is not list-shaped
defaults to an empty sequence, and the provider's own docstring says
`list_profession_names` never raises; but the code guards only falsiness
(`out.get("names") or []`), so a truthy non-iterable such as
`{"names": 5}` raises `TypeError` when the comprehension iterates it. -/
theorem claim_C6_code_bug :
    list_profession_names (Json.obj [("names", Json.num 5)])
      = Except.error "TypeError" := rfl

/-- C7 counterexample: for the requested category list `["LAW"]` (a valid
category) the seed substitution yields the *empty* list — `seed_names`
only has seed entries for TECHNOLOGY, MEDICINE and BUSINESS — so the
pipeline does not always proceed with a non-empty name set. -/
theorem claim_C7_counterexample : stage_a_finalize [] (some ["LAW"]) = [] := rfl

theorem dedupStringsAux_ne_nil :
    ∀ (l seen : List String) (x : String), x ∈ l → pyStrip x ≠ "" →
      pyLower (pyStrip x) ∉ seen → dedupStringsAux seen l ≠ [] := by
  intro l
  induction l with
  | nil => intro seen x hx; cases hx
  | cons it rest ih =>
    intro seen x hx hst hns
    simp only [dedupStringsAux]
    by_cases hc : pyStrip it ≠ "" ∧ pyLower (pyStrip it) ∉ seen
    · rw [if_pos hc]; simp
    · rw [if_neg hc]
      rcases List.mem_cons.1 hx with rfl | hmem
      · exact absurd ⟨hst, hns⟩ hc
      · exact ih seen x hmem hst hns

/-- C7 (corrected): when the merged stage-A list deduplicates to empty,
the seed list keyed by the requested categories is substituted; the
substituted set is non-empty when no categories were requested, or when
some requested category is one of TECHNOLOGY, MEDICINE or BUSINESS — but
for category lists containing none of the three seeded categories the
substituted seed is empty (see the counterexample). -/
theorem claim_C7_amended :
    (∀ (collected : List String) (cats : Option (List String)),
        stageADedupAux [] collected = [] → stage_a_finalize collected cats = seed_names cats)
  ∧ seed_names none ≠ []
  ∧ (∀ (cats : List String) (c : String), c ∈ cats →
        c = "TECHNOLOGY" ∨ c = "MEDICINE" ∨ c = "BUSINESS" →
        seed_names (some cats) ≠ []) := by
  refine ⟨?_, by decide, ?_⟩
  · intro collected cats h
    unfold stage_a_finalize
    rw [h, if_pos rfl]
  · intro cats c hc hin
    cases cats with
    | nil => cases hc
    | cons c0 cs =>
      show dedup_strings ((c0 :: cs).flatMap seedBase) ≠ []
      unfold dedup_strings
      rcases hin with rfl | rfl | rfl
      · exact dedupStringsAux_ne_nil _ [] "Разработчик программного обеспечения"
          (List.mem_flatMap.2 ⟨"TECHNOLOGY", hc, by decide⟩) (by decide) (by simp)
      · exact dedupStringsAux_ne_nil _ [] "Врач-терапевт"
          (List.mem_flatMap.2 ⟨"MEDICINE", hc, by decide⟩) (by decide) (by simp)
      · exact dedupStringsAux_ne_nil _ [] "Финансовый аналитик"
          (List.mem_flatMap.2 ⟨"BUSINESS", hc, by decide⟩) (by decide) (by simp)

/-- Witness for C7 at concrete inputs. -/
theorem claim_C7_witness :
    stage_a_finalize [] none = seed_names none ∧
    seed_names (some ["LAW", "TECHNOLOGY"]) ≠ [] :=
  ⟨claim_C7_amended.1 [] none rfl,
   claim_C7_amended.2.2 ["LAW", "TECHNOLOGY"] "TECHNOLOGY" (by decide) (Or.inl rfl)⟩

/-- C8 (confirmed): every stage-B unit contributes exactly one entry —
accepted plus rejected counts equal the number of submitted units — the
accumulation distributes over the completion-order list, and replacing one
unit by a failing one removes only that unit's row while every other
unit's contribution is untouched. -/
theorem claim_C8 :
    (∀ units : List (String × Json),
        (stage_b units).1.length + (stage_b units).2.length = units.length)
  ∧ (∀ a b : List (String × Json),
        stage_b (a ++ b)
          = ((stage_b a).1 ++ (stage_b b).1, (stage_b a).2 ++ (stage_b b).2))
  ∧ (∀ (a b : List (String × Json)) (n : String) (o : Json) (nm reason : String),
        processOne n o = Sum.inr (nm, reason) →
        (stage_b (a ++ (n, o) :: b)).1 = (stage_b a).1 ++ (stage_b b).1 ∧
        (stage_b (a ++ (n, o) :: b)).2
          = (stage_b a).2 ++ (nm, reason) :: (stage_b b).2) := by
  have happ : ∀ a b : List (String × Json),
      stage_b (a ++ b)
        = ((stage_b a).1 ++ (stage_b b).1, (stage_b a).2 ++ (stage_b b).2) := by
    intro a b
    induction a with
    | nil => simp [stage_b]
    | cons u rest ih =>
      obtain ⟨n, o⟩ := u
      simp only [List.cons_append, stage_b]
      cases processOne n o <;> simp [ih]
  refine ⟨?_, happ, ?_⟩
  · intro units
    induction units with
    | nil => rfl
    | cons u rest ih =>
      obtain ⟨n, o⟩ := u
      simp only [stage_b]
      cases processOne n o <;> simp only [List.length_cons] <;> omega
  · intro a b n o nm reason h
    have hone : stage_b ((n, o) :: b) = ((stage_b b).1, (nm, reason) :: (stage_b b).2) := by
      simp only [stage_b, h]
    rw [happ a ((n, o) :: b), hone]
    exact ⟨rfl, rfl⟩

/-- Witness for C8: a failing unit among concrete units. -/
theorem claim_C8_witness :
    (stage_b ([("A", Json.num 1)] ++ ("Bad", Json.num 3) :: [])).1
      = (stage_b [("A", Json.num 1)]).1 ++ (stage_b []).1 ∧
    (stage_b ([("A", Json.num 1)] ++ ("Bad", Json.num 3) :: [])).2
      = (stage_b [("A", Json.num 1)]).2
        ++ ("Bad", "validation_or_fetch_error:AttributeError") :: (stage_b []).2 :=
  claim_C8.2.2 [("A", Json.num 1)] [] "Bad" (Json.num 3) "Bad"
    "validation_or_fetch_error:AttributeError" rfl

theorem activeCount_set_active :
    ∀ (us : List UnitPhase) (i : Nat), us[i]? = some UnitPhase.pending →
      activeCount (us.set i UnitPhase.active) = activeCount us + 1 := by
  intro us
  induction us with
  | nil => intro i h; simp at h
  | cons u rest ih =>
    intro i h
    cases i with
    | zero =>
      simp only [List.getElem?_cons_zero, Option.some.injEq] at h
      subst h
      simp [List.set, activeCount]
    | succ j =>
      simp only [List.getElem?_cons_succ] at h
      cases u <;> simp [List.set, activeCount, ih j h]

theorem activeCount_set_finished :
    ∀ (us : List UnitPhase) (i : Nat), us[i]? = some UnitPhase.active →
      activeCount us = activeCount (us.set i UnitPhase.finished) + 1 := by
  intro us
  induction us with
  | nil => intro i h; simp at h
  | cons u rest ih =>
    intro i h
    cases i with
    | zero =>
      simp only [List.getElem?_cons_zero, Option.some.injEq] at h
      subst h
      simp [List.set, activeCount]
    | succ j =>
      simp only [List.getElem?_cons_succ] at h
      cases u <;> simp [List.set, activeCount, ih j h]

theorem activeCount_replicate (n : Nat) :
    activeCount (List.replicate n UnitPhase.pending) = 0 := by
  induction n with
  | zero => rfl
  | succ k ih => simp [List.replicate, activeCount, ih]

theorem fanout_invariant (n C : Nat) (s : FanoutState)
    (h : Relation.ReflTransGen FanoutStep (initState n C) s) :
    activeCount s.units + s.avail = C := by
  induction h with
  | refl => simp [initState, activeCount_replicate]
  | tail hsteps hstep ih =>
    cases hstep with
    | acquire units i a hu =>
      have := activeCount_set_active units i hu
      simp only at ih ⊢
      omega
    | release units i a hu =>
      have := activeCount_set_finished units i hu
      simp only at ih ⊢
      omega

/-- C9 (confirmed): under the semaphore discipline — a unit must consume a
free slot before becoming active and releases it unconditionally when it
finishes — every state reachable from the initial state (n pending units,
C free slots) has at most C simultaneously active units. -/
theorem claim_C9 (n C : Nat) (s : FanoutState)
    (h : Relation.ReflTransGen FanoutStep (initState n C) s) :
    activeCount s.units ≤ C := by
  have := fanout_invariant n C s h
  omega

/-- Witness for C9: ten units, ceiling three, after one acquisition. -/
theorem claim_C9_witness :
    activeCount ((List.replicate 10 UnitPhase.pending).set 0 UnitPhase.active) ≤ 3 :=
  claim_C9 10 3 ⟨(List.replicate 10 UnitPhase.pending).set 0 UnitPhase.active, 2⟩
    (Relation.ReflTransGen.tail Relation.ReflTransGen.refl
      (FanoutStep.acquire (List.replicate 10 UnitPhase.pending) 0 2 rfl))

/-! ## Round-trip correctness of the modelled JSON parser and serializer
(needed for the salvage-parser claim). -/

theorem char_ne_of_toNat_ne {a b : Char} (h : a.toNat ≠ b.toNat) : a ≠ b :=
  fun heq => h (by rw [heq])

theorem digitCh_toNat (d : Nat) (h : d < 10) : (digitCh d).toNat = 48 + d := by
  interval_cases d <;> rfl

theorem isDigitCh_digitCh (d : Nat) (h : d < 10) : isDigitCh (digitCh d) = true := by
  interval_cases d <;> rfl

theorem digitCh_ne_zero (d : Nat) (h1 : 1 ≤ d) (h2 : d < 10) : digitCh d ≠ '0' := by
  interval_cases d <;> decide

theorem isDigitCh_bounds {c : Char} (h : isDigitCh c = true) :
    48 ≤ c.toNat ∧ c.toNat ≤ 57 := by
  simpa [isDigitCh] using h

theorem natDigitsAux_ne_nil (f n : Nat) (h : 1 ≤ f) : natDigitsAux f n ≠ [] := by
  cases f with
  | zero => omega
  | succ f' =>
    simp only [natDigitsAux]
    split <;> simp

theorem natDigitsAux_digits : ∀ (f n : Nat), ∀ c ∈ natDigitsAux f n, isDigitCh c = true := by
  intro f
  induction f with
  | zero => intro n c hc; cases hc
  | succ f' ih =>
    intro n c hc
    by_cases hn : n < 10
    · simp only [natDigitsAux, if_pos hn, List.mem_singleton] at hc
      subst hc
      exact isDigitCh_digitCh n hn
    · simp only [natDigitsAux, if_neg hn] at hc
      rcases List.mem_append.1 hc with h1 | h2
      · exact ih _ c h1
      · simp only [List.mem_singleton] at h2
        subst h2
        exact isDigitCh_digitCh _ (Nat.mod_lt _ (by omega))

theorem digitsToNat_append_one (l : List Char) (acc : Nat) (c : Char) :
    digitsToNat acc (l ++ [c]) = digitsToNat acc l * 10 + (c.toNat - 48) := by
  induction l generalizing acc with
  | nil => rfl
  | cons d ds ih => exact ih (acc * 10 + (d.toNat - 48))

theorem digitsToNat_natDigitsAux :
    ∀ (f n acc : Nat), n < 10 ^ f →
      digitsToNat acc (natDigitsAux f n) = acc * 10 ^ (natDigitsAux f n).length + n := by
  intro f
  induction f with
  | zero =>
    intro n acc h
    simp only [pow_zero] at h
    have hn0 : n = 0 := by omega
    subst hn0
    show acc = acc * 10 ^ (List.length ([] : List Char)) + 0
    simp
  | succ f' ih =>
    intro n acc h
    by_cases hn : n < 10
    · rw [natDigitsAux, if_pos hn]
      show acc * 10 + ((digitCh n).toNat - 48) = acc * 10 ^ (1 : Nat) + n
      rw [digitCh_toNat n hn, pow_one]
      omega
    · rw [natDigitsAux, if_neg hn]
      rw [digitsToNat_append_one]
      have hdiv : n / 10 < 10 ^ f' := by
        rw [Nat.div_lt_iff_lt_mul (by omega)]
        rw [pow_succ] at h
        omega
      rw [ih (n / 10) acc hdiv]
      rw [digitCh_toNat (n % 10) (Nat.mod_lt _ (by omega))]
      rw [List.length_append, List.length_singleton, pow_succ]
      have h48 : 48 + n % 10 - 48 = n % 10 := by omega
      rw [h48]
      have hmod := Nat.div_add_mod n 10
      nlinarith [hmod]

theorem natDigits_val (n : Nat) : digitsToNat 0 (natDigits n) = n := by
  have hpow : n < 10 ^ (n + 1) :=
    lt_of_lt_of_le (Nat.lt_pow_self (by norm_num) n)
      (Nat.pow_le_pow_right (by norm_num) (by omega))
  unfold natDigits
  rw [digitsToNat_natDigitsAux _ _ _ hpow]
  simp

theorem natDigitsAux_head_ne_zero :
    ∀ (f n : Nat) (c : Char) (cs : List Char), n < 10 ^ f → 1 ≤ n →
      natDigitsAux f n = c :: cs → c ≠ '0' := by
  intro f
  induction f with
  | zero =>
    intro n c cs h h1 heq
    simp only [pow_zero] at h
    omega
  | succ f' ih =>
    intro n c cs h h1 heq
    by_cases hn : n < 10
    · simp only [natDigitsAux, if_pos hn] at heq
      obtain ⟨rfl, -⟩ := List.cons.inj heq
      exact digitCh_ne_zero n h1 hn
    · simp only [natDigitsAux, if_neg hn] at heq
      have hf' : 1 ≤ f' := by
        by_contra hc
        have hf0 : f' = 0 := by omega
        subst hf0
        have h10 : (10 : Nat) ^ (0 + 1) = 10 := by norm_num
        rw [h10] at h
        omega
      obtain ⟨c0, cs0, hshape⟩ : ∃ c0 cs0, natDigitsAux f' (n / 10) = c0 :: cs0 := by
        cases hx : natDigitsAux f' (n / 10) with
        | nil => exact absurd hx (natDigitsAux_ne_nil f' (n / 10) hf')
        | cons a as => exact ⟨a, as, rfl⟩
      rw [hshape, List.cons_append] at heq
      obtain ⟨rfl, -⟩ := List.cons.inj heq
      have hdiv : n / 10 < 10 ^ f' := by
        rw [Nat.div_lt_iff_lt_mul (by omega)]
        rw [pow_succ] at h
        omega
      exact ih (n / 10) _ cs0 hdiv (by omega) hshape

theorem natDigits_cons (n : Nat) : ∃ d ds, natDigits n = d :: ds := by
  cases hx : natDigits n with
  | nil => exact absurd hx (natDigitsAux_ne_nil (n + 1) n (by omega))
  | cons a as => exact ⟨a, as, rfl⟩

theorem takeDigits_append : ∀ (l rest : List Char),
    (∀ c ∈ l, isDigitCh c = true) →
    (∀ c, rest.head? = some c → isDigitCh c = false) →
    takeDigits (l ++ rest) = (l, rest) := by
  intro l
  induction l with
  | nil =>
    intro rest hl hr
    cases rest with
    | nil => rfl
    | cons c cs => simp [takeDigits, hr c rfl]
  | cons d ds ih =>
    intro rest hl hr
    simp [takeDigits, hl d (List.mem_cons_self d ds),
      ih rest (fun c hc => hl c (List.mem_cons_of_mem d hc)) hr]

theorem restOk_not_digit {rest : List Char} (hr : restOk rest = true) :
    ∀ c, rest.head? = some c → isDigitCh c = false := by
  intro c hc
  cases rest with
  | nil => cases hc
  | cons r rs =>
    obtain rfl : r = c := Option.some.inj hc
    simp only [restOk, Bool.not_eq_true'] at hr
    simp only [Bool.or_eq_false_iff] at hr
    exact hr.1.1.1

theorem restOk_not_ext {rest : List Char} (hr : restOk rest = true) :
    ∀ c, rest.head? = some c → ¬(c = '.' ∨ c = 'e' ∨ c = 'E') := by
  intro c hc
  cases rest with
  | nil => cases hc
  | cons r rs =>
    obtain rfl : r = c := Option.some.inj hc
    simp only [restOk, Bool.not_eq_true'] at hr
    simp only [Bool.or_eq_false_iff] at hr
    obtain ⟨⟨⟨-, hdot⟩, he⟩, hE⟩ := hr
    simp only [decide_eq_false_iff_not] at hdot he hE
    rintro (rfl | rfl | rfl)
    · exact hdot rfl
    · exact he rfl
    · exact hE rfl

theorem parseNumNat_natDigits (n : Nat) (rest : List Char) (hr : restOk rest = true) :
    parseNumNat (natDigits n ++ rest) = some (n, rest) := by
  have hdig : ∀ c ∈ natDigits n, isDigitCh c = true :=
    fun c hc => natDigitsAux_digits _ _ c hc
  have htake := takeDigits_append (natDigits n) rest hdig (restOk_not_digit hr)
  obtain ⟨d, ds, hshape⟩ := natDigits_cons n
  unfold parseNumNat
  rw [htake, hshape]
  have hlz : ¬(d = '0' ∧ ds ≠ []) := by
    rintro ⟨rfl, hds⟩
    by_cases hn : n = 0
    · subst hn
      have h0 : natDigits 0 = ['0'] := rfl
      rw [h0] at hshape
      exact hds (List.cons.inj hshape.symm).2
    · have hpow : n < 10 ^ (n + 1) :=
        lt_of_lt_of_le (Nat.lt_pow_self (by norm_num) n)
          (Nat.pow_le_pow_right (by norm_num) (by omega))
      exact natDigitsAux_head_ne_zero (n + 1) n '0' ds hpow (by omega) hshape rfl
  show (if d = '0' ∧ ds ≠ [] then none
        else match rest with
          | c :: _ =>
            if c = '.' ∨ c = 'e' ∨ c = 'E' then none
            else some (digitsToNat 0 (d :: ds), rest)
          | [] => some (digitsToNat 0 (d :: ds), rest)) = some (n, rest)
  rw [if_neg hlz]
  cases rest with
  | nil =>
    show some (digitsToNat 0 (d :: ds), ([] : List Char)) = some (n, [])
    rw [← hshape, natDigits_val]
  | cons r rs =>
    have hext := restOk_not_ext hr r rfl
    show (if r = '.' ∨ r = 'e' ∨ r = 'E' then none
          else some (digitsToNat 0 (d :: ds), r :: rs)) = some (n, r :: rs)
    rw [if_neg hext, ← hshape, natDigits_val]

theorem parseNum_intChars (i : Int) (rest : List Char) (hr : restOk rest = true) :
    parseNum (intChars i ++ rest) = some (i, rest) := by
  by_cases hneg : i < 0
  · rw [intChars, if_pos hneg, List.cons_append]
    show (parseNumNat (natDigits i.natAbs ++ rest)).map (fun p => (-(p.1 : Int), p.2))
        = some (i, rest)
    rw [parseNumNat_natDigits _ _ hr]
    show some (-(i.natAbs : Int), rest) = some (i, rest)
    have habs : -(i.natAbs : Int) = i := by omega
    rw [habs]
  · rw [intChars, if_neg hneg]
    obtain ⟨d, ds, hshape⟩ := natDigits_cons i.toNat
    have hd : isDigitCh d = true := by
      have hmem : d ∈ natDigits i.toNat := by
        rw [hshape]
        exact List.mem_cons_self d ds
      exact natDigitsAux_digits (i.toNat + 1) i.toNat d hmem
    have hdm : d ≠ '-' := by
      refine char_ne_of_toNat_ne ?_
      have hb := isDigitCh_bounds hd
      intro hc
      rw [hc] at hb
      simp at hb
    rw [hshape, List.cons_append]
    show (if d = '-' then (parseNumNat (ds ++ rest)).map (fun p => (-(p.1 : Int), p.2))
          else (parseNumNat (d :: (ds ++ rest))).map (fun p => ((p.1 : Int), p.2)))
        = some (i, rest)
    rw [if_neg hdm, ← List.cons_append, ← hshape, parseNumNat_natDigits _ _ hr]
    show some ((i.toNat : Int), rest) = some (i, rest)
    rw [Int.toNat_of_nonneg (by omega)]

theorem parseStrBody_ser : ∀ (l rest : List Char),
    (∀ c ∈ l, wfChar c = true) →
    parseStrBody (l.flatMap escChar ++ '"' :: rest) = some (l, rest) := by
  intro l
  induction l with
  | nil => intro rest h; rfl
  | cons c l' ih =>
    intro rest h
    have hc := h c (List.mem_cons_self c l')
    have htail := ih rest (fun x hx => h x (List.mem_cons_of_mem c hx))
    by_cases h1 : c = '"'
    · subst h1
      show parseStrBody ('\\' :: '"' :: (l'.flatMap escChar ++ '"' :: rest))
          = some ('"' :: l', rest)
      rw [show parseStrBody ('\\' :: '"' :: (l'.flatMap escChar ++ '"' :: rest))
            = (parseStrBody (l'.flatMap escChar ++ '"' :: rest)).bind
                (fun p => some ('"' :: p.1, p.2)) from rfl, htail]
      rfl
    · by_cases h2 : c = '\\'
      · subst h2
        show parseStrBody ('\\' :: '\\' :: (l'.flatMap escChar ++ '"' :: rest))
            = some ('\\' :: l', rest)
        rw [show parseStrBody ('\\' :: '\\' :: (l'.flatMap escChar ++ '"' :: rest))
              = (parseStrBody (l'.flatMap escChar ++ '"' :: rest)).bind
                  (fun p => some ('\\' :: p.1, p.2)) from rfl, htail]
        rfl
      · by_cases h3 : c = '\n'
        · subst h3
          show parseStrBody ('\\' :: 'n' :: (l'.flatMap escChar ++ '"' :: rest))
              = some ('\n' :: l', rest)
          rw [show parseStrBody ('\\' :: 'n' :: (l'.flatMap escChar ++ '"' :: rest))
                = (parseStrBody (l'.flatMap escChar ++ '"' :: rest)).bind
                    (fun p => some ('\n' :: p.1, p.2)) from rfl, htail]
          rfl
        · by_cases h4 : c = '\t'
          · subst h4
            show parseStrBody ('\\' :: 't' :: (l'.flatMap escChar ++ '"' :: rest))
                = some ('\t' :: l', rest)
            rw [show parseStrBody ('\\' :: 't' :: (l'.flatMap escChar ++ '"' :: rest))
                  = (parseStrBody (l'.flatMap escChar ++ '"' :: rest)).bind
                      (fun p => some ('\t' :: p.1, p.2)) from rfl, htail]
            rfl
          · by_cases h5 : c = '\r'
            · subst h5
              show parseStrBody ('\\' :: 'r' :: (l'.flatMap escChar ++ '"' :: rest))
                  = some ('\r' :: l', rest)
              rw [show parseStrBody ('\\' :: 'r' :: (l'.flatMap escChar ++ '"' :: rest))
                    = (parseStrBody (l'.flatMap escChar ++ '"' :: rest)).bind
                        (fun p => some ('\r' :: p.1, p.2)) from rfl, htail]
              rfl
            · have hesc : escChar c = [c] := by
                rw [escChar, if_neg h1, if_neg h2, if_neg h3, if_neg h4, if_neg h5]
              have h32 : ¬ c.toNat < 32 := by
                simp only [wfChar, Bool.or_eq_true, decide_eq_true_eq] at hc
                rcases hc with ((h | h) | h) | h
                · omega
                · exact absurd h h3
                · exact absurd h h4
                · exact absurd h h5
              show parseStrBody ((escChar c ++ l'.flatMap escChar) ++ '"' :: rest)
                  = some (c :: l', rest)
              rw [hesc]
              show parseStrBody (c :: (l'.flatMap escChar ++ '"' :: rest))
                  = some (c :: l', rest)
              rw [show parseStrBody (c :: (l'.flatMap escChar ++ '"' :: rest))
                    = (if c = '"' then some ([], l'.flatMap escChar ++ '"' :: rest)
                       else if c = '\\' then parseEsc (l'.flatMap escChar ++ '"' :: rest)
                       else if c.toNat < 32 then none
                       else (parseStrBody (l'.flatMap escChar ++ '"' :: rest)).bind
                         (fun p => some (c :: p.1, p.2))) from rfl]
              rw [if_neg h1, if_neg h2, if_neg h32, htail]
              rfl

theorem not_special_of_digit {c : Char} (hd : isDigitCh c = true) :
    ∀ x : Char, x.toNat < 48 ∨ 57 < x.toNat → c ≠ x := by
  obtain ⟨hl, hu⟩ := isDigitCh_bounds hd
  intro x hx heq
  subst heq
  omega

theorem isWsB_false_of_digit {c : Char} (hd : isDigitCh c = true) : isWsB c = false := by
  have h := not_special_of_digit hd
  simp only [isWsB, Bool.or_eq_false_iff, decide_eq_false_iff_not]
  exact ⟨⟨⟨h ' ' (by decide), h '\t' (by decide)⟩, h '\n' (by decide)⟩, h '\r' (by decide)⟩

theorem skipWs_cons_of_not_ws {c : Char} (cs : List Char) (h : isWsB c = false) :
    skipWs (c :: cs) = c :: cs := by
  simp [skipWs, h]

theorem serV_head (j : Json) :
    ∃ c cs, serV j = c :: cs ∧ isWsB c = false ∧ c ≠ ']' ∧ c ≠ rbrace := by
  cases j with
  | null => exact ⟨'n', ['u', 'l', 'l'], rfl, by decide, by decide, by decide⟩
  | bool b =>
    cases b with
    | true => exact ⟨'t', ['r', 'u', 'e'], rfl, by decide, by decide, by decide⟩
    | false => exact ⟨'f', ['a', 'l', 's', 'e'], rfl, by decide, by decide, by decide⟩
  | num i =>
    by_cases hneg : i < 0
    · refine ⟨'-', natDigits i.natAbs, ?_, by decide, by decide, by decide⟩
      show intChars i = '-' :: natDigits i.natAbs
      rw [intChars, if_pos hneg]
    · obtain ⟨d, ds, hshape⟩ := natDigits_cons i.toNat
      have hd : isDigitCh d = true := by
        have hmem : d ∈ natDigits i.toNat := by
          rw [hshape]
          exact List.mem_cons_self d ds
        exact natDigitsAux_digits (i.toNat + 1) i.toNat d hmem
      refine ⟨d, ds, ?_, isWsB_false_of_digit hd,
        not_special_of_digit hd ']' (by decide),
        not_special_of_digit hd rbrace (by decide)⟩
      show intChars i = d :: ds
      rw [intChars, if_neg hneg, hshape]
  | str s =>
    exact ⟨'"', s.data.flatMap escChar ++ ['"'], rfl, by decide, by decide, by decide⟩
  | arr xs => exact ⟨'[', serL xs ++ [']'], rfl, by decide, by decide, by decide⟩
  | obj fs => exact ⟨lbrace, serO fs ++ [rbrace], rfl, by decide, by decide, by decide⟩

theorem serV_length_pos (j : Json) : 1 ≤ (serV j).length := by
  obtain ⟨c, cs, h, -⟩ := serV_head j
  rw [h]
  simp

mutual

theorem sizeV_le : ∀ j : Json, sizeV j + 1 ≤ 2 * (serV j).length
  | .null => by decide
  | .bool true => by decide
  | .bool false => by decide
  | .num i => by
      have h := serV_length_pos (Json.num i)
      show 1 + 1 ≤ 2 * (serV (Json.num i)).length
      omega
  | .str s => by
      show 1 + 1 ≤ 2 * (serStr s).length
      simp only [serStr, List.length_cons, List.length_append, List.length_singleton]
      omega
  | .arr xs => by
      have h := sizeL_le xs
      show (1 + sizeL xs) + 1 ≤ 2 * ('[' :: serL xs ++ [']']).length
      simp only [List.length_cons, List.length_append, List.length_singleton]
      omega
  | .obj fs => by
      have h := sizeO_le fs
      show (1 + sizeO fs) + 1 ≤ 2 * (lbrace :: serO fs ++ [rbrace]).length
      simp only [List.length_cons, List.length_append, List.length_singleton]
      omega

theorem sizeL_le : ∀ xs : List Json, sizeL xs ≤ 2 * (serL xs).length + 1
  | [] => by decide
  | [x] => by
      have h := sizeV_le x
      show 1 + sizeV x + 1 ≤ 2 * (serV x).length + 1
      omega
  | x :: y :: ys => by
      have h1 := sizeV_le x
      have h2 := sizeL_le (y :: ys)
      show 1 + sizeV x + sizeL (y :: ys)
          ≤ 2 * (serV x ++ ',' :: serL (y :: ys)).length + 1
      simp only [List.length_append, List.length_cons]
      omega

theorem sizeO_le : ∀ fs : List (String × Json), sizeO fs ≤ 2 * (serO fs).length + 1
  | [] => by decide
  | [(k, v)] => by
      have h := sizeV_le v
      show 1 + sizeV v + 1 ≤ 2 * (serStr k ++ ':' :: serV v).length + 1
      simp only [List.length_append, List.length_cons]
      omega
  | (k, v) :: g :: gs => by
      have h1 := sizeV_le v
      have h2 := sizeO_le (g :: gs)
      show 1 + sizeV v + sizeO (g :: gs)
          ≤ 2 * (serStr k ++ ':' :: serV v ++ ',' :: serO (g :: gs)).length + 1
      simp only [List.length_append, List.length_cons]
      omega

end

theorem sizeV_pos (j : Json) : 1 ≤ sizeV j := by
  cases j <;> simp [sizeV]

theorem sizeL_pos (xs : List Json) : 1 ≤ sizeL xs := by
  cases xs with
  | nil => simp [sizeL]
  | cons x xs => simp [sizeL]; omega

theorem sizeO_pos (fs : List (String × Json)) : 1 ≤ sizeO fs := by
  cases fs with
  | nil => simp [sizeO]
  | cons f fs =>
    obtain ⟨k, v⟩ := f
    simp [sizeO]
    omega

theorem pVal_num_dispatch (f : Nat) (c : Char) (cs : List Char)
    (hws : isWsB c = false) (h1 : c ≠ 'n') (h2 : c ≠ 't') (h3 : c ≠ 'f')
    (h4 : c ≠ '"') (h5 : c ≠ '[') (h6 : c ≠ lbrace) :
    pVal (f + 1) (c :: cs) = (parseNum (c :: cs)).map (fun p => (Json.num p.1, p.2)) := by
  simp only [pVal]
  rw [skipWs_cons_of_not_ws cs hws]
  simp only [if_neg h1, if_neg h2, if_neg h3, if_neg h4, if_neg h5, if_neg h6]

mutual

theorem pVal_ser : ∀ (j : Json) (f : Nat) (rest : List Char),
    wfV j = true → sizeV j ≤ f → restOk rest = true →
    pVal f (serV j ++ rest) = some (j, rest)
  | .null, f, rest, _, hsz, _ => by
      obtain ⟨f', rfl⟩ : ∃ f', f = f' + 1 :=
        ⟨f - 1, by have := sizeV_pos Json.null; omega⟩
      rfl
  | .bool true, f, rest, _, hsz, _ => by
      obtain ⟨f', rfl⟩ : ∃ f', f = f' + 1 :=
        ⟨f - 1, by have := sizeV_pos (Json.bool true); omega⟩
      rfl
  | .bool false, f, rest, _, hsz, _ => by
      obtain ⟨f', rfl⟩ : ∃ f', f = f' + 1 :=
        ⟨f - 1, by have := sizeV_pos (Json.bool false); omega⟩
      rfl
  | .num i, f, rest, _, hsz, hrest => by
      obtain ⟨f', rfl⟩ : ∃ f', f = f' + 1 :=
        ⟨f - 1, by have := sizeV_pos (Json.num i); omega⟩
      by_cases hneg : i < 0
      · have hser : serV (Json.num i) ++ rest = '-' :: (natDigits i.natAbs ++ rest) := by
          show intChars i ++ rest = _
          rw [intChars, if_pos hneg]
          rfl
        rw [hser]
        rw [show pVal (f' + 1) ('-' :: (natDigits i.natAbs ++ rest))
              = (parseNum ('-' :: (natDigits i.natAbs ++ rest))).map
                  (fun p => (Json.num p.1, p.2)) from rfl]
        rw [show ('-' :: (natDigits i.natAbs ++ rest)) = intChars i ++ rest from by
          rw [intChars, if_pos hneg]; rfl]
        rw [parseNum_intChars i rest hrest]
        rfl
      · obtain ⟨d, ds, hshape⟩ := natDigits_cons i.toNat
        have hd : isDigitCh d = true := by
          have hmem : d ∈ natDigits i.toNat := by
            rw [hshape]; exact List.mem_cons_self d ds
          exact natDigitsAux_digits (i.toNat + 1) i.toNat d hmem
        have hser : serV (Json.num i) ++ rest = d :: (ds ++ rest) := by
          show intChars i ++ rest = _
          rw [intChars, if_neg hneg, hshape]
          rfl
        rw [hser]
        rw [pVal_num_dispatch f' d (ds ++ rest) (isWsB_false_of_digit hd)
          (not_special_of_digit hd 'n' (by decide))
          (not_special_of_digit hd 't' (by decide))
          (not_special_of_digit hd 'f' (by decide))
          (not_special_of_digit hd '"' (by decide))
          (not_special_of_digit hd '[' (by decide))
          (not_special_of_digit hd lbrace (by decide))]
        rw [show (d :: (ds ++ rest)) = intChars i ++ rest from by
          rw [intChars, if_neg hneg, hshape]; rfl]
        rw [parseNum_intChars i rest hrest]
        rfl
  | .str s, f, rest, hwf, hsz, _ => by
      obtain ⟨f', rfl⟩ : ∃ f', f = f' + 1 :=
        ⟨f - 1, by have := sizeV_pos (Json.str s); omega⟩
      have hser : serV (Json.str s) ++ rest
          = '"' :: (s.data.flatMap escChar ++ '"' :: rest) := by
        show serStr s ++ rest = _
        simp [serStr]
      rw [hser]
      rw [show pVal (f' + 1) ('"' :: (s.data.flatMap escChar ++ '"' :: rest))
            = (parseStrBody (s.data.flatMap escChar ++ '"' :: rest)).map
                (fun p => (Json.str ⟨p.1⟩, p.2)) from rfl]
      rw [parseStrBody_ser s.data rest (by
        have hws : wfStr s = true := hwf
        simpa [wfStr, List.all_eq_true] using hws)]
      rfl
  | .arr [], f, rest, _, hsz, _ => by
      obtain ⟨f', rfl⟩ : ∃ f', f = f' + 1 :=
        ⟨f - 1, by have := sizeV_pos (Json.arr []); omega⟩
      rfl
  | .arr (x :: xs), f, rest, hwf, hsz, _ => by
      obtain ⟨f', rfl⟩ : ∃ f', f = f' + 1 :=
        ⟨f - 1, by have := sizeV_pos (Json.arr (x :: xs)); omega⟩
      have hwl : wfL (x :: xs) = true := hwf
      have hszL : sizeL (x :: xs) ≤ f' := by
        have hs : sizeV (Json.arr (x :: xs)) = 1 + sizeL (x :: xs) := rfl
        omega
      rw [show serV (Json.arr (x :: xs)) ++ rest
            = '[' :: (serL (x :: xs) ++ ']' :: rest) from by simp [serV]]
      rw [show pVal (f' + 1) ('[' :: (serL (x :: xs) ++ ']' :: rest))
            = (match skipWs (serL (x :: xs) ++ ']' :: rest) with
               | [] => none
               | d :: r =>
                 if d = ']' then some (Json.arr [], r)
                 else (pElems f' (d :: r)).map (fun p => (Json.arr p.1, p.2))) from rfl]
      obtain ⟨c0, cs0, hc0, hws0, hnb0, -⟩ := serV_head x
      obtain ⟨t, ht⟩ : ∃ t, serL (x :: xs) = c0 :: t := by
        cases xs with
        | nil => exact ⟨cs0, by simp [serL, hc0]⟩
        | cons y ys => exact ⟨cs0 ++ ',' :: serL (y :: ys), by simp [serL, hc0]⟩
      rw [ht, List.cons_append, skipWs_cons_of_not_ws _ hws0]
      rw [show (match c0 :: (t ++ ']' :: rest) with
               | [] => none
               | d :: r =>
                 if d = ']' then some (Json.arr [], r)
                 else (pElems f' (d :: r)).map (fun p => (Json.arr p.1, p.2)))
            = (if c0 = ']' then some (Json.arr [], t ++ ']' :: rest)
               else (pElems f' (c0 :: (t ++ ']' :: rest))).map
                 (fun p => (Json.arr p.1, p.2))) from rfl]
      rw [if_neg hnb0, ← List.cons_append, ← ht]
      rw [pElems_ser (x :: xs) f' rest hwl (by simp) hszL]
      rfl
  | .obj [], f, rest, _, hsz, _ => by
      obtain ⟨f', rfl⟩ : ∃ f', f = f' + 1 :=
        ⟨f - 1, by have := sizeV_pos (Json.obj []); omega⟩
      rfl
  | .obj (g :: gs), f, rest, hwf, hsz, _ => by
      obtain ⟨f', rfl⟩ : ∃ f', f = f' + 1 :=
        ⟨f - 1, by have := sizeV_pos (Json.obj (g :: gs)); omega⟩
      have hwo : wfO (g :: gs) = true := hwf
      have hszO : sizeO (g :: gs) ≤ f' := by
        have hs : sizeV (Json.obj (g :: gs)) = 1 + sizeO (g :: gs) := rfl
        omega
      rw [show serV (Json.obj (g :: gs)) ++ rest
            = lbrace :: (serO (g :: gs) ++ rbrace :: rest) from by simp [serV]]
      rw [show pVal (f' + 1) (lbrace :: (serO (g :: gs) ++ rbrace :: rest))
            = (match skipWs (serO (g :: gs) ++ rbrace :: rest) with
               | [] => none
               | d :: r =>
                 if d = rbrace then some (Json.obj [], r)
                 else (pFields f' (d :: r)).map (fun p => (Json.obj p.1, p.2))) from rfl]
      obtain ⟨k, v⟩ := g
      obtain ⟨t, ht⟩ : ∃ t, serO ((k, v) :: gs) = '"' :: t := by
        cases gs with
        | nil => exact ⟨k.data.flatMap escChar ++ '"' :: ':' :: serV v, by simp [serO, serStr]⟩
        | cons g2 gs2 =>
          exact ⟨k.data.flatMap escChar ++ '"' :: ':' :: (serV v ++ ',' :: serO (g2 :: gs2)),
            by simp [serO, serStr]⟩
      rw [ht, List.cons_append, skipWs_cons_of_not_ws _ (by decide)]
      rw [show (match '"' :: (t ++ rbrace :: rest) with
               | [] => none
               | d :: r =>
                 if d = rbrace then some (Json.obj [], r)
                 else (pFields f' (d :: r)).map (fun p => (Json.obj p.1, p.2)))
            = (pFields f' ('"' :: (t ++ rbrace :: rest))).map
                (fun p => (Json.obj p.1, p.2)) from rfl]
      rw [← List.cons_append, ← ht]
      rw [pFields_ser ((k, v) :: gs) f' rest hwo (by simp) hszO]
      rfl

theorem pElems_ser : ∀ (xs : List Json) (f : Nat) (rest : List Char),
    wfL xs = true → xs ≠ [] → sizeL xs ≤ f →
    pElems f (serL xs ++ ']' :: rest) = some (xs, rest)
  | [], _, _, _, hne, _ => absurd rfl hne
  | [x], f, rest, hwf, _, hsz => by
      obtain ⟨f', rfl⟩ : ∃ f', f = f' + 1 :=
        ⟨f - 1, by have := sizeL_pos [x]; omega⟩
      have hwx : wfV x = true := by
        have h := hwf
        simp only [wfL, Bool.and_eq_true] at h
        exact h.1
      have hszx : sizeV x ≤ f' := by
        have hs : sizeL [x] = 1 + sizeV x + 1 := rfl
        omega
      show pElems (f' + 1) (serV x ++ ']' :: rest) = some ([x], rest)
      rw [show pElems (f' + 1) (serV x ++ ']' :: rest)
            = (match pVal f' (serV x ++ ']' :: rest) with
               | none => none
               | some (v, r) =>
                 match skipWs r with
                 | [] => none
                 | c :: r2 =>
                   if c = ',' then (pElems f' r2).map (fun p => (v :: p.1, p.2))
                   else if c = ']' then some ([v], r2)
                   else none) from rfl]
      rw [pVal_ser x f' (']' :: rest) hwx hszx rfl]
      rfl
  | x :: y :: ys, f, rest, hwf, _, hsz => by
      obtain ⟨f', rfl⟩ : ∃ f', f = f' + 1 :=
        ⟨f - 1, by have := sizeL_pos (x :: y :: ys); omega⟩
      have hwx : wfV x = true := by
        have h := hwf
        simp only [wfL, Bool.and_eq_true] at h
        exact h.1
      have hwtail : wfL (y :: ys) = true := by
        have h := hwf
        simp only [wfL, Bool.and_eq_true] at h
        simp only [wfL, Bool.and_eq_true]
        exact h.2
      have hszx : sizeV x ≤ f' := by
        have hs : sizeL (x :: y :: ys) = 1 + sizeV x + sizeL (y :: ys) := rfl
        have hp := sizeL_pos (y :: ys)
        omega
      have hsztail : sizeL (y :: ys) ≤ f' := by
        have hs : sizeL (x :: y :: ys) = 1 + sizeV x + sizeL (y :: ys) := rfl
        have hp := sizeV_pos x
        omega
      rw [show serL (x :: y :: ys) ++ ']' :: rest
            = serV x ++ ',' :: (serL (y :: ys) ++ ']' :: rest) from by simp [serL]]
      rw [show pElems (f' + 1) (serV x ++ ',' :: (serL (y :: ys) ++ ']' :: rest))
            = (match pVal f' (serV x ++ ',' :: (serL (y :: ys) ++ ']' :: rest)) with
               | none => none
               | some (v, r) =>
                 match skipWs r with
                 | [] => none
                 | c :: r2 =>
                   if c = ',' then (pElems f' r2).map (fun p => (v :: p.1, p.2))
                   else if c = ']' then some ([v], r2)
                   else none) from rfl]
      rw [pVal_ser x f' (',' :: (serL (y :: ys) ++ ']' :: rest)) hwx hszx rfl]
      rw [show (match some (x, ',' :: (serL (y :: ys) ++ ']' :: rest)) with
               | none => none
               | some (v, r) =>
                 match skipWs r with
                 | [] => none
                 | c :: r2 =>
                   if c = ',' then (pElems f' r2).map (fun p => (v :: p.1, p.2))
                   else if c = ']' then some ([v], r2)
                   else none)
            = (pElems f' (serL (y :: ys) ++ ']' :: rest)).map
                (fun p => (x :: p.1, p.2)) from rfl]
      rw [pElems_ser (y :: ys) f' rest hwtail (by simp) hsztail]
      rfl

theorem pFields_ser : ∀ (fs : List (String × Json)) (f : Nat) (rest : List Char),
    wfO fs = true → fs ≠ [] → sizeO fs ≤ f →
    pFields f (serO fs ++ rbrace :: rest) = some (fs, rest)
  | [], _, _, _, hne, _ => absurd rfl hne
  | [(k, v)], f, rest, hwf, _, hsz => by
      obtain ⟨f', rfl⟩ : ∃ f', f = f' + 1 :=
        ⟨f - 1, by have := sizeO_pos [(k, v)]; omega⟩
      have hwk : wfStr k = true := by
        have h := hwf
        simp only [wfO, Bool.and_eq_true] at h
        exact h.1.1
      have hwv : wfV v = true := by
        have h := hwf
        simp only [wfO, Bool.and_eq_true] at h
        exact h.1.2
      have hszv : sizeV v ≤ f' := by
        have hs : sizeO [(k, v)] = 1 + sizeV v + 1 := rfl
        omega
      rw [show serO [(k, v)] ++ rbrace :: rest
            = '"' :: (k.data.flatMap escChar ++ '"' :: (':' :: (serV v ++ rbrace :: rest)))
          from by simp [serO, serStr]]
      rw [show pFields (f' + 1)
              ('"' :: (k.data.flatMap escChar ++ '"' :: (':' :: (serV v ++ rbrace :: rest))))
            = (match parseStrBody
                  (k.data.flatMap escChar ++ '"' :: (':' :: (serV v ++ rbrace :: rest))) with
               | none => none
               | some (kk, r) =>
                 match skipWs r with
                 | [] => none
                 | c2 :: r2 =>
                   if c2 = ':' then
                     match pVal f' r2 with
                     | none => none
                     | some (v2, r3) =>
                       match skipWs r3 with
                       | [] => none
                       | c3 :: r4 =>
                         if c3 = ',' then
                           (pFields f' r4).map (fun p => ((⟨kk⟩, v2) :: p.1, p.2))
                         else if c3 = rbrace then some ([(⟨kk⟩, v2)], r4)
                         else none
                   else none) from rfl]
      rw [parseStrBody_ser k.data (':' :: (serV v ++ rbrace :: rest)) (by
        simpa [wfStr, List.all_eq_true] using hwk)]
      show (match pVal f' (serV v ++ rbrace :: rest) with
            | none => none
            | some (v2, r3) =>
              match skipWs r3 with
              | [] => none
              | c3 :: r4 =>
                if c3 = ',' then
                  (pFields f' r4).map (fun p => ((⟨k.data⟩, v2) :: p.1, p.2))
                else if c3 = rbrace then some ([(⟨k.data⟩, v2)], r4)
                else none)
          = some ([(k, v)], rest)
      rw [pVal_ser v f' (rbrace :: rest) hwv hszv rfl]
      rfl
  | (k, v) :: g2 :: gs2, f, rest, hwf, _, hsz => by
      obtain ⟨f', rfl⟩ : ∃ f', f = f' + 1 :=
        ⟨f - 1, by have := sizeO_pos ((k, v) :: g2 :: gs2); omega⟩
      have hwk : wfStr k = true := by
        have h := hwf
        simp only [wfO, Bool.and_eq_true] at h
        exact h.1.1
      have hwv : wfV v = true := by
        have h := hwf
        simp only [wfO, Bool.and_eq_true] at h
        exact h.1.2
      have hwtail : wfO (g2 :: gs2) = true := by
        have h := hwf
        simp only [wfO, Bool.and_eq_true] at h
        obtain ⟨k2, v2⟩ := g2
        simp only [wfO, Bool.and_eq_true]
        exact h.2
      have hszv : sizeV v ≤ f' := by
        have hs : sizeO ((k, v) :: g2 :: gs2) = 1 + sizeV v + sizeO (g2 :: gs2) := rfl
        have hp := sizeO_pos (g2 :: gs2)
        omega
      have hsztail : sizeO (g2 :: gs2) ≤ f' := by
        have hs : sizeO ((k, v) :: g2 :: gs2) = 1 + sizeV v + sizeO (g2 :: gs2) := rfl
        have hp := sizeV_pos v
        omega
      rw [show serO ((k, v) :: g2 :: gs2) ++ rbrace :: rest
            = '"' :: (k.data.flatMap escChar
                ++ '"' :: (':' :: (serV v ++ ',' :: (serO (g2 :: gs2) ++ rbrace :: rest))))
          from by simp [serO, serStr]]
      rw [show pFields (f' + 1)
              ('"' :: (k.data.flatMap escChar
                ++ '"' :: (':' :: (serV v ++ ',' :: (serO (g2 :: gs2) ++ rbrace :: rest)))))
            = (match parseStrBody
                  (k.data.flatMap escChar
                    ++ '"' :: (':' :: (serV v ++ ',' :: (serO (g2 :: gs2) ++ rbrace :: rest)))) with
               | none => none
               | some (kk, r) =>
                 match skipWs r with
                 | [] => none
                 | c2 :: r2 =>
                   if c2 = ':' then
                     match pVal f' r2 with
                     | none => none
                     | some (v2, r3) =>
                       match skipWs r3 with
                       | [] => none
                       | c3 :: r4 =>
                         if c3 = ',' then
                           (pFields f' r4).map (fun p => ((⟨kk⟩, v2) :: p.1, p.2))
                         else if c3 = rbrace then some ([(⟨kk⟩, v2)], r4)
                         else none
                   else none) from rfl]
      rw [parseStrBody_ser k.data
        (':' :: (serV v ++ ',' :: (serO (g2 :: gs2) ++ rbrace :: rest))) (by
        simpa [wfStr, List.all_eq_true] using hwk)]
      show (match pVal f' (serV v ++ ',' :: (serO (g2 :: gs2) ++ rbrace :: rest)) with
            | none => none
            | some (v2, r3) =>
              match skipWs r3 with
              | [] => none
              | c3 :: r4 =>
                if c3 = ',' then
                  (pFields f' r4).map (fun p => ((⟨k.data⟩, v2) :: p.1, p.2))
                else if c3 = rbrace then some ([(⟨k.data⟩, v2)], r4)
                else none)
          = some ((k, v) :: g2 :: gs2, rest)
      rw [pVal_ser v f' (',' :: (serO (g2 :: gs2) ++ rbrace :: rest)) hwv hszv rfl]
      show (pFields f' (serO (g2 :: gs2) ++ rbrace :: rest)).map
            (fun p => ((⟨k.data⟩, v) :: p.1, p.2))
          = some ((k, v) :: g2 :: gs2, rest)
      rw [pFields_ser (g2 :: gs2) f' rest hwtail (by simp) hsztail]
      rfl

end

theorem json_loads_dumps (j : Json) (h : wfV j = true) : json_loads (dumps j) = some j := by
  unfold json_loads dumps
  rw [show (String.mk (serV j)).data = serV j from rfl]
  rw [show (String.mk (serV j)).length = (serV j).length from rfl]
  have hfuel : sizeV j ≤ 2 * ((serV j).length + 1) := by
    have := sizeV_le j
    omega
  have hp := pVal_ser j (2 * ((serV j).length + 1)) [] h hfuel rfl
  rw [List.append_nil] at hp
  rw [hp]
  rfl

theorem findIdx_append_first (l t : List Char) (c : Char) (hl : ∀ x ∈ l, x ≠ c) :
    findIdx c (l ++ c :: t) = some l.length := by
  induction l with
  | nil => simp [findIdx]
  | cons a as ih =>
    have ha : a ≠ c := hl a (List.mem_cons_self a as)
    rw [List.cons_append, findIdx, if_neg ha,
      ih (fun x hx => hl x (List.mem_cons_of_mem a hx))]
    rfl

theorem findIdx_sound : ∀ (cs : List Char) (c : Char) (i : Nat),
    findIdx c cs = some i → i < cs.length ∧ cs[i]? = some c := by
  intro cs
  induction cs with
  | nil => intro c i h; cases h
  | cons a as ih =>
    intro c i h
    by_cases ha : a = c
    · rw [findIdx, if_pos ha] at h
      obtain rfl : (0 : Nat) = i := Option.some.inj h
      subst ha
      exact ⟨by simp, by simp⟩
    · rw [findIdx, if_neg ha] at h
      cases hx : findIdx c as with
      | none => rw [hx] at h; cases h
      | some i' =>
        rw [hx] at h
        obtain rfl : i' + 1 = i := Option.some.inj h
        obtain ⟨h1, h2⟩ := ih c i' hx
        exact ⟨by simp; omega, by simpa using h2⟩

theorem rfindIdx_append_last (l t : List Char) (c : Char) (ht : ∀ x ∈ t, x ≠ c) :
    rfindIdx c (l ++ c :: t) = some l.length := by
  unfold rfindIdx
  rw [show (l ++ c :: t).reverse = t.reverse ++ c :: l.reverse from by simp]
  rw [findIdx_append_first t.reverse l.reverse c (fun x hx => ht x (List.mem_reverse.1 hx))]
  simp only [Option.map_some']
  rw [List.length_append, List.length_cons, List.length_reverse]
  congr 1
  omega

theorem rfindIdx_sound (cs : List Char) (c : Char) (j : Nat) (h : rfindIdx c cs = some j) :
    j < cs.length ∧ cs[j]? = some c := by
  unfold rfindIdx at h
  cases hx : findIdx c cs.reverse with
  | none => rw [hx] at h; cases h
  | some k =>
    rw [hx] at h
    simp only [Option.map_some'] at h
    obtain rfl : cs.length - 1 - k = j := Option.some.inj h
    obtain ⟨hk, hget⟩ := findIdx_sound cs.reverse c k hx
    rw [List.length_reverse] at hk
    rw [List.getElem?_reverse hk] at hget
    exact ⟨by omega, hget⟩

theorem safe_json_of_strict_fail (s : String) (hs : s ≠ "") (h : json_loads s = none) :
    safe_json s = salvage s := by
  unfold safe_json
  rw [if_neg hs, h]

theorem salvage_eq_of_span (s : String) (i j : Nat)
    (hf : findIdx lbrace s.data = some i) (hr : rfindIdx rbrace s.data = some j)
    (hij : i < j) :
    salvage s = (match json_loads ⟨(s.data.drop i).take (j + 1 - i)⟩ with
                 | some v => v
                 | none => Json.obj []) := by
  unfold salvage
  rw [hf, hr]
  simp only [if_pos hij]

theorem salvage_no_span (s : String) (h : ¬ hasBraceSpan s) : salvage s = Json.obj [] := by
  unfold salvage
  cases hf : findIdx lbrace s.data with
  | none => rfl
  | some i =>
    cases hr : rfindIdx rbrace s.data with
    | none => rfl
    | some j =>
      by_cases hij : i < j
      · exfalso
        apply h
        obtain ⟨hi, hgi⟩ := findIdx_sound s.data lbrace i hf
        obtain ⟨hj, hgj⟩ := rfindIdx_sound s.data rbrace j hr
        refine ⟨⟨i, hi⟩, ⟨j, hj⟩, hij, ?_, ?_⟩
        · have := List.getElem?_eq_getElem hi
          rw [this] at hgi
          simpa [List.get_eq_getElem] using hgi
        · have := List.getElem?_eq_getElem hj
          rw [this] at hgj
          simpa [List.get_eq_getElem] using hgj
      · simp only [if_neg hij]

/-- C1 counterexample: the claim promises recovery of an embedded JSON
object for an *arbitrary* prefix; with the prefix containing an opening
brace — here `"\x7b "` — the salvage span runs from that brace to the last
closing brace, is not valid JSON, and `_safe_json` answers the empty dict
instead of the embedded object. -/
theorem claim_C1_counterexample :
    safe_json ("\x7b " ++ dumps (Json.obj [("a", Json.num 1)]))
      ≠ Json.obj [("a", Json.num 1)] := by
  intro h
  have h0 : safe_json ("\x7b " ++ dumps (Json.obj [("a", Json.num 1)])) = Json.obj [] := rfl
  rw [h0] at h
  simp at h

/-- C1 (corrected): `_safe_json` recovers an embedded well-formed JSON
object when the surrounding text puts no opening brace in the prefix and
no closing brace in the suffix and the whole string is not itself
strictly decodable (otherwise Python's strict pass returns that decode
instead, and a brace in the surrounding text can break the salvage span —
see the counterexample); for a string with no brace span on which strict
decoding fails, the result is the empty dict.  The embedding is a total
function, matching the never-raises contract. -/
theorem claim_C1_amended :
    (∀ (fs : List (String × Json)) (p q : String),
        wfV (Json.obj fs) = true →
        (∀ c ∈ p.data, c ≠ lbrace) →
        (∀ c ∈ q.data, c ≠ rbrace) →
        json_loads (p ++ dumps (Json.obj fs) ++ q) = none →
        safe_json (p ++ dumps (Json.obj fs) ++ q) = Json.obj fs)
  ∧ (∀ s : String, ¬ hasBraceSpan s → json_loads s = none →
        safe_json s = Json.obj []) := by
  constructor
  · intro fs p q hwf hp hq hnone
    have hdata : (p ++ dumps (Json.obj fs) ++ q).data
        = p.data ++ serV (Json.obj fs) ++ q.data := by
      simp [String.data_append, dumps]
    have hser : serV (Json.obj fs) = lbrace :: (serO fs ++ [rbrace]) := rfl
    have hsne : (p ++ dumps (Json.obj fs) ++ q) ≠ "" := by
      intro h0
      have hd0 : (p ++ dumps (Json.obj fs) ++ q).data = [] := by rw [h0]
      rw [hdata, hser] at hd0
      simp at hd0
    rw [safe_json_of_strict_fail _ hsne hnone]
    have hfind : findIdx lbrace (p ++ dumps (Json.obj fs) ++ q).data
        = some p.data.length := by
      rw [hdata, hser]
      rw [show p.data ++ (lbrace :: (serO fs ++ [rbrace])) ++ q.data
            = p.data ++ lbrace :: (serO fs ++ [rbrace] ++ q.data) from by simp]
      exact findIdx_append_first _ _ _ hp
    have hrfind : rfindIdx rbrace (p ++ dumps (Json.obj fs) ++ q).data
        = some (p.data.length + 1 + (serO fs).length) := by
      rw [hdata, hser]
      rw [show p.data ++ (lbrace :: (serO fs ++ [rbrace])) ++ q.data
            = (p.data ++ lbrace :: serO fs) ++ rbrace :: q.data from by simp]
      rw [rfindIdx_append_last _ _ _ hq]
      congr 1
      simp [List.length_append]
      omega
    have hij : p.data.length < p.data.length + 1 + (serO fs).length := by omega
    rw [salvage_eq_of_span _ _ _ hfind hrfind hij]
    have hsub : (((p ++ dumps (Json.obj fs) ++ q).data.drop p.data.length).take
          (p.data.length + 1 + (serO fs).length + 1 - p.data.length))
        = serV (Json.obj fs) := by
      rw [hdata]
      rw [show p.data ++ serV (Json.obj fs) ++ q.data
            = p.data ++ (serV (Json.obj fs) ++ q.data) from by simp]
      rw [List.drop_left]
      have hlen : (serV (Json.obj fs)).length = (serO fs).length + 2 := by
        rw [hser]
        simp
      rw [show p.data.length + 1 + (serO fs).length + 1 - p.data.length
            = (serV (Json.obj fs)).length from by rw [hlen]; omega]
      exact List.take_left _ _
    rw [hsub]
    rw [show (⟨serV (Json.obj fs)⟩ : String) = dumps (Json.obj fs) from rfl]
    rw [json_loads_dumps _ hwf]
  · intro s hspan hnone
    by_cases hs : s = ""
    · subst hs
      rfl
    · rw [safe_json_of_strict_fail s hs hnone, salvage_no_span s hspan]

/-- Witness for C1 at concrete inputs: an object embedded in brace-free
prose is recovered; a brace-free non-JSON string yields the empty dict. -/
theorem claim_C1_witness :
    safe_json ("note: " ++ dumps (Json.obj [("a", Json.num 1)]) ++ " end")
      = Json.obj [("a", Json.num 1)] ∧
    safe_json "no data" = Json.obj [] :=
  ⟨claim_C1_amended.1 [("a", Json.num 1)] "note: " " end"
      (by decide) (by decide) (by decide) (by rfl),
   claim_C1_amended.2 "no data" (by decide) (by rfl)⟩
